import Mathlib

/-!
Verification of the ensembl_lite core against its specification.

This file gives a shallow embedding, in Lean 4, of the core data structures
and algorithms of the ensembl_lite repository:

* the Record Normalizer `custom_gff_parser` (src/ensembl_lite/_genomedb.py,
  lines 114-138), embedded as `custom_gff_records`;
* the Relationship Builder `make_gene_relationships`
  (src/ensembl_lite/_genomedb.py, lines 473-497);
* the Feature Graph Store insert path `EnsemblGffDb.add_feature`
  (src/ensembl_lite/_genomedb.py, lines 269-288), embedded as `add_feature`;
* the Homology Clusterer `grouped_related`
  (src/ensembl_lite/_homologydb.py, lines 99-140);
* the Homology Merge Engine `merge_grouped`
  (src/ensembl_lite/_homologydb.py, lines 161-195);
* the Homology Store `HomologyDb.add_records` / `get_related_to` /
  `get_related_groups` (src/ensembl_lite/_homologydb.py, lines 243-343),
  embedded as `add_records`, `get_related_to`, `get_related_groups`.

Python dictionaries are embedded as association lists with insertion-order
semantics (`alook` is lookup, `aset` is `d[k] = v`: overwrite in place if the
key is present, append otherwise).  Python sets of strings are embedded as
duplicate-free lists compared up to membership (`List.toFinset`); where the
source iterates over a Python set, whose order is unspecified, the embedding
fixes a deterministic order and the point is noted at the definition.
Machine integers are embedded as `Nat` (no arithmetic here can overflow in
the source: counters only grow).  Fallible operations return `Except`.
-/

/-- Lookup in an association list: first binding of the key wins.  Embeds
Python `d[k]` / `d.get(k)`. -/
def alook {κ β : Type} [DecidableEq κ] (k : κ) : List (κ × β) → Option β
  | [] => none
  | p :: rest => if p.1 = k then some p.2 else alook k rest

/-- Update of an association list: overwrite the first binding of the key in
place, append a new binding at the end if the key is absent.  Embeds Python
`d[k] = v`, which preserves insertion order of keys. -/
def aset {κ β : Type} [DecidableEq κ] (k : κ) (v : β) : List (κ × β) → List (κ × β)
  | [] => [(k, v)]
  | p :: rest => if p.1 = k then (k, v) :: rest else p :: aset k v rest

/-- Keys of an association list, in insertion order. -/
def akeys {κ β : Type} (m : List (κ × β)) : List κ := m.map (fun p => p.1)

/-- Helper for `fdedup`, carrying the set of elements already emitted. -/
def fdedupAux {α : Type} [DecidableEq α] (seen : List α) : List α → List α
  | [] => []
  | a :: rest => if a ∈ seen then fdedupAux seen rest else a :: fdedupAux (a :: seen) rest

/-- Remove duplicates keeping the first occurrence of each element.  Embeds
the deduplication a Python `dict` or `set` performs, with first-occurrence
order as the deterministic stand-in for unspecified set iteration order. -/
def fdedup {α : Type} [DecidableEq α] (l : List α) : List α := fdedupAux [] l

/-- Union of two duplicate-free lists (members of the first, then the new
members of the second).  Embeds Python `set | set` up to iteration order. -/
def uniteL {α : Type} [DecidableEq α] (a b : List α) : List α :=
  a ++ b.filter (fun x => decide (x ∉ a))

/-- Minimum of a list of naturals (0 on the empty list, which no caller
reaches: every use is on a nonempty list of coordinates). -/
def listMin : List Nat → Nat
  | [] => 0
  | a :: rest => rest.foldl min a

/-- Maximum of a list of naturals (0 on the empty list). -/
def listMax : List Nat → Nat
  | [] => 0
  | a :: rest => rest.foldl max a

/-- All coordinates appearing in a list of (start, stop) spans. -/
def coordsOf (spans : List (Nat × Nat)) : List Nat :=
  spans.foldr (fun p acc => p.1 :: p.2 :: acc) []

/-- Byte-wise lexicographic comparison of character lists, used to fix a
deterministic order where the Python source iterates over a set of strings
in unspecified order. -/
def lexLe : List Char → List Char → Bool
  | [], _ => true
  | _ :: _, [] => false
  | a :: as, b :: bs => if a = b then lexLe as bs else decide (a.toNat < b.toNat)

/-- Lexicographic order on strings (total, antisymmetric, transitive). -/
def strLe (a b : String) : Bool := lexLe a.data b.data

/-- Canonical sort of a list of strings under `strLe`. -/
def sortS (l : List String) : List String :=
  List.insertionSort (fun a b => strLe a b = true) l

/-- ASCII lower-casing of one character (the identifiers and biotype labels
processed by the source are ASCII). -/
def lowChar (c : Char) : Char :=
  if 65 ≤ c.toNat ∧ c.toNat ≤ 90 then Char.ofNat (c.toNat + 32) else c

/-- ASCII lower-casing of a string; embeds Python `str.lower()` on the ASCII
identifiers the source handles. -/
def lowerStr (s : String) : String := String.mk (s.data.map lowChar)

/-! ## Record Normalizer (`custom_gff_parser`, _genomedb.py lines 114-138)

The parser loop consumes one `EnsemblGffRecord` per raw annotation line; by
the time the merging logic runs, `update_from_attrs` has already extracted
the record's name from the `ID=`/`exon_id=` attribute fields.  `GffLine`
embeds one such per-line record (`name = none` when the attribute text
yields no identifier), and `custom_gff_records` embeds the deduplication
loop, including the synthetic `unknown-N` identifiers. -/

/-- One raw annotation line after attribute parsing: the nine GFF columns
retained by `EnsemblGffRecord`, with `name` as extracted from the attribute
text (`none` when the line has no `ID=`/`exon_id=` field). -/
structure GffLine where
  seqid : String
  source : String
  biotype : String
  score : String
  strand : String
  phase : String
  attrs : String
  name : Option String
  start : Nat
  stop : Nat
deriving DecidableEq, Repr

/-- A finalized feature record: the first contributing line's column values,
with the identifier, the aggregated span list, and the widened start/stop. -/
structure GffRec where
  seqid : String
  source : String
  biotype : String
  score : String
  strand : String
  phase : String
  attrs : String
  name : String
  start : Nat
  stop : Nat
  spans : List (Nat × Nat)
deriving DecidableEq, Repr

/-- The record freshly inserted for a line: its own fields, one span. -/
def mkRec (l : GffLine) (nm : String) : GffRec :=
  ⟨l.seqid, l.source, l.biotype, l.score, l.strand, l.phase, l.attrs, nm,
   l.start, l.stop, [(l.start, l.stop)]⟩

/-- Identifier for a line: its extracted name, or a synthetic
`unknown-<counter>` id (the counter `num_fake_ids` is threaded through). -/
def lineName (l : GffLine) (k : Nat) : String × Nat :=
  match l.name with
  | some s => (s, k)
  | none => ("unknown-" ++ toString k, k + 1)

/-- One iteration of the `custom_gff_parser` loop: look the identifier up in
the running table; if present, append the line's (start, stop) as a new span
and widen start/stop; otherwise insert a fresh record carrying the line's
fields and its own single span. -/
def reduceStep (acc : List (String × GffRec) × Nat) (l : GffLine) :
    List (String × GffRec) × Nat :=
  let p := lineName l acc.2
  match alook p.1 acc.1 with
  | some r =>
      (aset p.1
        { r with spans := r.spans ++ [(l.start, l.stop)],
                 start := min r.start l.start,
                 stop := max r.stop l.stop } acc.1, p.2)
  | none => (acc.1 ++ [(p.1, mkRec l p.1)], p.2)

/-- Embedding of `custom_gff_parser`: fold the merging step over the stream
of per-line records, returning the identifier-keyed table of finalized
records and the updated synthetic-id counter. -/
def custom_gff_records (lines : List GffLine) (num_fake_ids : Nat) :
    List (String × GffRec) × Nat :=
  lines.foldl reduceStep ([], num_fake_ids)

/-! ## Relationship Builder (`make_gene_relationships`, _genomedb.py 473-497)

`EnsemblGffRecord.__hash__`/`__eq__` (lines 70-74) identify a record with
its `name`, so Python dicts and sets of records are embedded as structures
keyed by name.  The `attrs` free text is embedded as its list of `;`
separated tokens, which is all `is_canonical` (a substring test for
`Ensembl_canonical`) observes. -/

/-- A normalized feature record as seen by the Relationship Builder. -/
structure FeatRec where
  name : String
  biotype : String
  parent_id : String
  attrs : List String
deriving DecidableEq, Repr

/-- Embeds the `is_canonical` property: the attribute text contains the
`Ensembl_canonical` token. -/
def is_canonical (r : FeatRec) : Bool := decide ("Ensembl_canonical" ∈ r.attrs)

/-- Split a character list at `:` separators. -/
def splitColonAux : List Char → List (List Char) → List Char → List (List Char)
  | [], acc, cur => acc ++ [cur.reverse]
  | c :: rest, acc, cur =>
    if c = ':' then splitColonAux rest (acc ++ [cur.reverse]) []
    else splitColonAux rest acc (c :: cur)

/-- A segment the `\b[a-z]+:` (case-insensitive) pattern would match before
a colon: nonempty and all letters. -/
def isAlphaSeg (s : List Char) : Bool := !s.isEmpty && s.all Char.isAlpha

/-- Rejoin colon-separated segments. -/
def joinColon : List (List Char) → List Char
  | [] => []
  | [s] => s
  | s :: rest => s ++ ':' :: joinColon rest

/-- Drop every all-letter segment that is followed by a colon (each such
segment-plus-colon is one match of the `_typed_id` pattern). -/
def dropTypedSegs : List (List Char) → List (List Char)
  | [] => []
  | [s] => [s]
  | s :: rest => if isAlphaSeg s then dropTypedSegs rest else s :: dropTypedSegs rest

/-- Embeds the `stableid` property (`_typed_id.sub("", name)`): remove every
lower-cased type prefix such as `gene:` from the name. -/
def stableidOf (name : String) : String :=
  String.mk (joinColon (dropTypedSegs (splitColonAux name.data [] [])))

/-- Bucket records by lower-cased biotype, each bucket keyed by record name
(later records with the same name overwrite earlier ones, as in a Python
dict keyed by records hashing on `name`). -/
def biotypeBuckets (records : List FeatRec) :
    List (String × List (String × FeatRec)) :=
  records.foldl
    (fun acc r =>
      let b := (alook (lowerStr r.biotype) acc).getD []
      aset (lowerStr r.biotype) (aset r.name r b) acc) []

/-- Embedding of `make_gene_relationships`.  For every CDS record, resolve
its mRNA by `parent_id`, then that mRNA's gene; mark the CDS canonical when
the mRNA is; then perform `genes.get(gene.stableid, set())`, update the set
with the CDS and mRNA, and store it under `genes[gene]`.  The `genes` dict
is keyed by records hashing on `name`, so the `get` by the stripped
`stableid` only finds an entry whose key record has `name = stableid`, while
the store uses the full `gene.name`; the embedding reproduces exactly that.
A broken CDS → mRNA or mRNA → gene reference is a `KeyError` in the source,
embedded as `Except.error`; each returned set holds the member records'
names (record identity in the source is name identity). -/
def make_gene_relationships (records : List FeatRec) :
    Except String (List (String × Finset String)) :=
  let related := biotypeBuckets records
  match alook "cds" related with
  | none => .error "KeyError: cds"
  | some cdsBucket =>
    (cdsBucket.map (fun p => p.2)).foldlM
      (fun genes cds =>
        match alook cds.parent_id ((alook "mrna" related).getD []) with
        | none => .error "KeyError: missing mRNA record"
        | some mrna =>
          let cds2 := if is_canonical mrna then
              { cds with attrs := "Ensembl_canonical" :: cds.attrs } else cds
          match alook mrna.parent_id ((alook "gene" related).getD []) with
          | none => .error "KeyError: missing gene record"
          | some gene =>
            let prior := (alook (stableidOf gene.name) genes).getD ∅
            .ok (aset gene.name (insert cds2.name (insert mrna.name prior)) genes))
      []

/-! ## Feature Graph Store insert path (`EnsemblGffDb.add_feature`, 269-288)

`_feature_schema` (lines 149-164) declares `stableid` as a plain `TEXT`
column — no `UNIQUE` or `PRIMARY KEY` constraint — and `make_indexes` only
ever creates non-unique indexes, so the `INSERT INTO feature(...)` in
`add_feature` succeeds unconditionally and the embedding is a total
function.  `feature.start or int(spans.min())` uses Python truthiness:
`None` and `0` both fall back to the span minimum. -/

/-- A feature record as passed to `add_feature` (columns of
`_feature_schema` except the two id columns, which the store assigns). -/
structure FeatIn where
  seqid : String
  source : String
  score : String
  strand : String
  phase : String
  attributes : String
  comments : String
  stableid : String
  biotype : String
  canonical : Bool
  start : Option Nat
  stop : Option Nat
  spans : List (Nat × Nat)
deriving DecidableEq, Repr

/-- A persisted row of the `feature` table. -/
structure FeatureRow where
  seqid : String
  source : String
  score : String
  strand : String
  phase : String
  attributes : String
  comments : String
  stableid : String
  canonical : Bool
  start : Nat
  stop : Nat
  spans : List (Nat × Nat)
  biotype_id : Nat
  id : Nat
deriving DecidableEq, Repr

/-- The feature store: interned biotypes and the feature table, with the
next AUTOINCREMENT value of each (SQLite rowids start at 1). -/
structure GffDb where
  biotype : List (String × Nat)
  biotypeNext : Nat
  feature : List FeatureRow
  featureNext : Nat
deriving DecidableEq, Repr

/-- A fresh feature store. -/
def emptyGffDb : GffDb := ⟨[], 1, [], 1⟩

/-- Embeds `_get_biotype_id` as observed from a fresh store: intern the
biotype string, inserting a new id on first occurrence. -/
def getBiotypeId (db : GffDb) (b : String) : GffDb × Nat :=
  match alook b db.biotype with
  | some i => (db, i)
  | none =>
      ({ db with biotype := db.biotype ++ [(b, db.biotypeNext)],
                 biotypeNext := db.biotypeNext + 1 }, db.biotypeNext)

/-- Python `value or alternative` for a coordinate: `None` and `0` are both
falsy and select the alternative. -/
def orCoord (v : Option Nat) (alt : Nat) : Nat :=
  match v with
  | some s => if s = 0 then alt else s
  | none => alt

/-- Embedding of `EnsemblGffDb.add_feature`: recompute falsy start/stop from
the spans, intern the biotype, insert the row unconditionally (the schema
imposes no uniqueness on `stableid`), and return the assigned surrogate id. -/
def add_feature (db : GffDb) (f : FeatIn) : GffDb × Nat :=
  let start := orCoord f.start (listMin (coordsOf f.spans))
  let stop := orCoord f.stop (listMax (coordsOf f.spans))
  let p := getBiotypeId db f.biotype
  let row : FeatureRow :=
    ⟨f.seqid, f.source, f.score, f.strand, f.phase, f.attributes, f.comments,
     f.stableid, f.canonical, start, stop, f.spans, p.2, p.1.featureNext⟩
  ({ p.1 with feature := p.1.feature ++ [row], featureNext := p.1.featureNext + 1 },
   p.1.featureNext)

/-! ## Homology Clusterer (`grouped_related`, _homologydb.py lines 99-140)

The source keeps, per relationship type, a dict mapping each seen gene id to
a shared, mutable `homolog_group` object; mutating the object updates every
gene mapped to it.  The embedding gives each group object a numeric identity
(`GState.next` counts allocations) and stores members in a side table, which
models Python object sharing exactly.  The output for a type is
`tuple(set(dict.values()))`: the distinct group objects reachable from the
gene map, deduplicated by object identity (`homolog_group.__hash__` hashes
`id(self.gene_ids)`), embedded as `fdedup` of the value ids in key insertion
order. -/

/-- Per-relationship-type clusterer state: the gene id → group object map,
the member sets of the allocated group objects, and the allocation counter. -/
structure GState where
  assign : List (String × Nat)
  groups : List (Nat × List String)
  next : Nat
deriving DecidableEq, Repr

/-- State before any triple of a relationship type is seen. -/
def emptyG : GState := ⟨[], [], 0⟩

/-- The Python set `{gene_id_1, gene_id_2}`. -/
def pairOf (g1 g2 : String) : List String := fdedup [g1, g2]

/-- The target group of a triple: `gene_id_1`'s group if it has one, else
`gene_id_2`'s group if it has one (the `if`/`elif` of lines 125-128). -/
def gtarget (gs : GState) (g1 g2 : String) : Option Nat :=
  match alook g1 gs.assign with
  | some i => some i
  | none => alook g2 gs.assign

/-- One triple of `grouped_related`: pick the target group (allocating a new
empty one if neither gene is mapped), union the pair into its member set,
and map both genes to it. -/
def gstep (gs : GState) (g1 g2 : String) : GState :=
  match gtarget gs g1 g2 with
  | some i =>
      ⟨aset g2 i (aset g1 i gs.assign),
       aset i (uniteL ((alook i gs.groups).getD []) (pairOf g1 g2)) gs.groups,
       gs.next⟩
  | none =>
      ⟨aset g2 gs.next (aset g1 gs.next gs.assign),
       gs.groups ++ [(gs.next, pairOf g1 g2)],
       gs.next + 1⟩

/-- A (relationship type, gene id, gene id) input triple. -/
abbrev HTriple := String × String × String

/-- One triple at the level of the type-keyed table `grouped`. -/
def cstep (tbl : List (String × GState)) (e : HTriple) : List (String × GState) :=
  let gs := (alook e.1 tbl).getD emptyG
  aset e.1 (gstep gs e.2.1 e.2.2) tbl

/-- The full left-to-right pass of `grouped_related` over the input. -/
def runGrouped (data : List HTriple) : List (String × GState) := data.foldl cstep []

/-- The distinct group objects reachable from the gene map, by identity, in
key insertion order (embeds `set(grouped[rel_type].values())`). -/
def liveIds (gs : GState) : List Nat := fdedup (gs.assign.map (fun p => p.2))

/-- The member sets of the reachable groups of one relationship type. -/
def liveGroups (gs : GState) : List (List String) :=
  (liveIds gs).map (fun i => (alook i gs.groups).getD [])

/-- A relationship-type-keyed mapping of groups, each group being its member
gene ids (a duplicate-free list embedding the Python set `gene_ids`; the
`relationship` field of every group under a key equals that key). -/
abbrev TMap := List (String × List (List String))

/-- Embedding of `grouped_related`: run the pass, then report, per type, the
deduplicated tuple of reachable groups. -/
def grouped_related (data : List HTriple) : TMap :=
  (runGrouped data).map (fun p => (p.1, liveGroups p.2))

/-- A triple bridges two groups when both its gene ids are already mapped to
distinct group objects of its relationship type; this is the situation in
which `grouped_related` unions the pair into the first gene's group while
the second gene's old group keeps its stale members. -/
def isBridge (tbl : List (String × GState)) (e : HTriple) : Bool :=
  let gs := (alook e.1 tbl).getD emptyG
  match alook e.2.1 gs.assign, alook e.2.2 gs.assign with
  | some i, some j => decide (i ≠ j)
  | _, _ => false

/-- Helper for `bridgeFree`: check each triple against the state it arrives
in. -/
def bridgeFreeAux : List (String × GState) → List HTriple → Bool
  | _, [] => true
  | tbl, e :: rest => !(isBridge tbl e) && bridgeFreeAux (cstep tbl e) rest

/-- An input is bridge-free when no triple arrives with its two gene ids
already assigned to different groups of its type. -/
def bridgeFree (data : List HTriple) : Bool := bridgeFreeAux [] data

/-! ## Homology Merge Engine (`merge_grouped`, _homologydb.py lines 143-195)

Groups are lists of gene ids representing Python sets; a type-keyed mapping
is a `TMap` exactly as produced by `grouped_related`.  Three iteration
orders that the source leaves to Python set iteration are fixed
deterministically: the keys unique to one side are added in first-appearance
order, the shared gene ids are processed in `strLe`-sorted order (the same
set is iterated whichever operand comes first, so any fixed order of it is
consistent with the source), and the final `tuple(set(values))` keeps first
occurrences. -/

/-- A gene id → group map for one relationship type. -/
abbrev AMap := List (String × List String)

/-- The keys of `_gene_id_to_group`: every gene id appearing in some group,
in first-appearance order. -/
def gkeys (gs : List (List String)) : List String := fdedup gs.flatten

/-- The value of `_gene_id_to_group` at a gene id: the last group of the
series containing it (`result.update` lets later groups overwrite). -/
def glookup (gs : List (List String)) (g : String) : List String :=
  (gs.reverse.find? (fun G => decide (g ∈ G))).getD []

/-- Assign one value to every key of a target list, in order (embeds
`d.update({gene_id: merged for gene_id in merged.gene_ids})`). -/
def updAllV (v : List String) : List String → AMap → AMap
  | [], m => m
  | x :: rest, m => updAllV v rest (aset x v m)

/-- The shared-gene loop of `merge_grouped` (lines 186-191): for each shared
gene id not yet processed, union the two groups containing it, assign the
union to all of its members, and mark them processed. -/
def mloop (l1 l2 : List (List String)) :
    List String → List String → AMap → AMap
  | [], _, m => m
  | g :: rest, skip, m =>
    if g ∈ skip then mloop l1 l2 rest skip m
    else
      let merged := uniteL (glookup l1 g) (glookup l2 g)
      mloop l1 l2 rest (skip ++ merged) (updAllV merged merged m)

/-- Merge the two group series of one relationship type present in both
inputs: carry through groups of genes unique to either side, then run the
shared-gene loop, and return the deduplicated values of the resulting map. -/
def mergeType (l1 l2 : List (List String)) : List (List String) :=
  let k1 := gkeys l1
  let k2 := gkeys l2
  let m0 : AMap :=
    (k1.filter (fun g => decide (g ∉ k2))).map (fun g => (g, glookup l1 g)) ++
    (k2.filter (fun g => decide (g ∉ k1))).map (fun g => (g, glookup l2 g))
  let shared := sortS (k1.filter (fun g => decide (g ∈ k2)))
  fdedup ((mloop l1 l2 shared [] m0).map (fun p => p.2))

/-- Embedding of `merge_grouped`: for each relationship type of either
input, copy it through if the other side lacks it, else merge the two group
series. -/
def merge_grouped (group1 group2 : TMap) : TMap :=
  (fdedup (group1.map (fun p => p.1) ++ group2.map (fun p => p.1))).map
    (fun t =>
      match alook t group1, alook t group2 with
      | some l1, some l2 => (t, mergeType l1 l2)
      | some l1, none => (t, l1)
      | none, some l2 => (t, l2)
      | none, none => (t, []))

/-- The groups of one series viewed as a set of member sets — the comparison
the specification prescribes for merge results ("per-type results are
compared as sets of groups and groups are compared by relationship type and
member set"). -/
def gset (l : List (List String)) : Finset (Finset String) :=
  (l.map List.toFinset).toFinset

/-- The relationship types of a mapping, as a set. -/
def keysTF (x : TMap) : Finset String := (x.map (fun p => p.1)).toFinset

/-- Equality of two type-keyed mappings in the specification's sense: the
same relationship types, and for each type the same set of member sets. -/
def sameT (x y : TMap) : Prop :=
  keysTF x = keysTF y ∧
  ∀ t ∈ keysTF x, gset ((alook t x).getD []) = gset ((alook t y).getD [])

/-! ## Homology Store (`HomologyDb`, _homologydb.py lines 199-355)

The three tables `relationship`, `homology`, `member` are embedded as
lists of rows in insertion order (for the two id-keyed tables, insertion
order is rowid order, since AUTOINCREMENT ids start at 1 and only grow).
`_get_homology_group_id` issues a `LIMIT 1` query with no `ORDER BY`; the
embedding fixes the homology-table scan order (ascending id), matching the
nested-loop plan of the unindexed view.  `INSERT OR IGNORE` into `member`
skips rows already present (the primary key is the whole row). -/

/-- A `homolog_group`: its relationship type label and its member gene ids
(a duplicate-free list embedding the Python set). -/
structure HGroup where
  relationship : String
  gene_ids : List String
deriving DecidableEq, Repr

/-- The homology store state: the relationship-type table with its next id,
the homology-group table (id, relationship id) with its next id, and the
member rows (gene id, homology id). -/
structure HomState where
  relationship : List (String × Nat)
  relNext : Nat
  homology : List (Nat × Nat)
  homNext : Nat
  member : List (String × Nat)
deriving DecidableEq, Repr

/-- A fresh homology store. -/
def emptyHom : HomState := ⟨[], 1, [], 1, []⟩

/-- Embeds `_make_relationship_type_id`: return the id of a relationship
type, inserting a row on first use. -/
def makeRelTypeId (st : HomState) (t : String) : HomState × Nat :=
  match alook t st.relationship with
  | some i => (st, i)
  | none =>
      ({ st with relationship := st.relationship ++ [(t, st.relNext)],
                 relNext := st.relNext + 1 }, st.relNext)

/-- Membership of one row in the member table. -/
def memHas (st : HomState) (g : String) (h : Nat) : Bool :=
  decide ((g, h) ∈ st.member)

/-- Embeds the lookup branch of `_get_homology_group_id`: the first homology
row of this relationship id one of whose members is among the given gene
ids, scanning homology rows in id order. -/
def findGroupId (st : HomState) (relId : Nat) (geneIds : List String) : Option Nat :=
  (st.homology.find?
      (fun h => decide (h.2 = relId) && geneIds.any (fun g => memHas st g h.1))).map
    (fun h => h.1)

/-- `INSERT OR IGNORE INTO member`: append the rows not already present. -/
def insertMembers (st : HomState) (geneIds : List String) (h : Nat) : HomState :=
  { st with
    member := st.member ++
      (geneIds.filter (fun g => decide ((g, h) ∉ st.member))).map (fun g => (g, h)) }

/-- Insert one group: attach to the first persisted group sharing a member
(under this relationship id) if any, else allocate a fresh homology id; then
insert-or-ignore the member rows. -/
def addGroup (st : HomState) (relId : Nat) (geneIds : List String) : HomState :=
  match findGroupId st relId geneIds with
  | some h => insertMembers st geneIds h
  | none =>
      insertMembers
        { st with homology := st.homology ++ [(st.homNext, relId)],
                  homNext := st.homNext + 1 }
        geneIds st.homNext

/-- The per-group loop of `add_records`, checking each group's relationship
label against the declared relationship type (a `ValueError` on mismatch). -/
def addLoop (relType : String) (relId : Nat) :
    HomState → List HGroup → Except String HomState
  | st, [] => .ok st
  | st, gr :: rest =>
    if gr.relationship = relType then
      addLoop relType relId (addGroup st relId gr.gene_ids) rest
    else .error "group relationship does not match relationship_type"

/-- Embedding of `HomologyDb.add_records`. -/
def add_records (st : HomState) (records : List HGroup) (relationship_type : String) :
    Except String HomState :=
  let p := makeRelTypeId st relationship_type
  addLoop relationship_type p.2 p.1 records

/-- Embedding of `HomologyDb.get_related_to`: find the first homology id of
this type having the gene as a member (the `fetchone`); if none, return the
empty tuple, else return the gene ids of all member rows of that homology
id, in row order. -/
def get_related_to (st : HomState) (gene_id relationship_type : String) :
    List String :=
  match
    (st.homology.find?
        (fun h =>
          decide (alook relationship_type st.relationship = some h.2) &&
          memHas st gene_id h.1)).map (fun h => h.1)
  with
  | none => []
  | some hid => (st.member.filter (fun p => decide (p.2 = hid))).map (fun p => p.1)

/-- Embedding of `HomologyDb.get_related_groups`: the member gene ids of
each homology id of this type, grouped by homology id (`GROUP BY` only
yields groups with at least one member row). -/
def get_related_groups (st : HomState) (relationship_type : String) :
    List (List String) :=
  ((st.homology.filter
        (fun h => decide (alook relationship_type st.relationship = some h.2))).map
      (fun h => (st.member.filter (fun p => decide (p.2 = h.1))).map (fun p => p.1))).filter
    (fun g => decide (g ≠ []))

/-! ## Concrete inputs for scenarios, counterexamples and witnesses -/

/-- The bridging input of concrete scenario 3: the third edge arrives with
its endpoints in two different existing groups. -/
def bridgeData : List HTriple :=
  [("ortho", "a", "b"), ("ortho", "c", "d"), ("ortho", "b", "c")]

/-- The input of concrete scenario 2. -/
def chainData : List HTriple :=
  [("ortho", "g1", "g2"), ("ortho", "g2", "g3")]

/-- A bridge-free input over two relationship types. -/
def freeData : List HTriple :=
  [("ortho", "a", "b"), ("ortho", "b", "c"), ("para", "a", "x")]

/-- Left operand of the associativity counterexample: the clustering of the
edges (o,a,x), (o,b,y). -/
def mergeA : TMap := [("o", [["a", "x"], ["b", "y"]])]

/-- Middle operand: the clustering of the edge (o,a,b). -/
def mergeB : TMap := [("o", [["a", "b"]])]

/-- Right operand: the clustering of the edge (o,b,y). -/
def mergeC : TMap := [("o", [["b", "y"]])]

/-- The group of concrete scenario 4. -/
def gr123 : HGroup := ⟨"ortho", ["g1", "g2", "g3"]⟩

/-- A group sequence with overlapping members, as the bridging behaviour of
the Clusterer can produce. -/
def overlapGroups : List HGroup :=
  [⟨"o", ["a", "b"]⟩, ⟨"o", ["c", "d"]⟩, ⟨"o", ["b", "c"]⟩]

/-- A pairwise disjoint group sequence. -/
def disjGroups : List HGroup := [⟨"o", ["a", "b"]⟩, ⟨"o", ["c", "d"]⟩]

/-- First line of concrete scenario 1 (`ID=exon1`, span (10,20)). -/
def exonLine1 : GffLine :=
  ⟨"22", "ensembl", "exon", ".", "+", ".", "ID=exon1", some "exon1", 10, 20⟩

/-- Second line of concrete scenario 1 (same id, span (30,40)). -/
def exonLine2 : GffLine := { exonLine1 with start := 30, stop := 40 }

/-- A gene with two mRNAs, each with one CDS, using the type-prefixed
stable identifiers of the Ensembl annotation format. -/
def c3Records : List FeatRec :=
  [⟨"gene:g1", "gene", "", []⟩,
   ⟨"mrna:m1", "mrna", "gene:g1", []⟩,
   ⟨"mrna:m2", "mrna", "gene:g1", []⟩,
   ⟨"cds:c1", "cds", "mrna:m1", []⟩,
   ⟨"cds:c2", "cds", "mrna:m2", []⟩]

/-- A feature insert used twice to probe duplicate stable ids. -/
def dupFeature : FeatIn :=
  ⟨"22", "ensembl", ".", "+", ".", "ID=gene:x", "", "gene:x", "gene", false,
   some 5, some 9, [(5, 9)]⟩

/-- The record produced for `exon1` by a single occurrence of `exonLine1`. -/
def exonRec1 : GffRec := mkRec exonLine1 "exon1"

/-- The record of concrete scenario 1: both lines merged. -/
def exonRecMerged : GffRec :=
  { exonRec1 with start := 10, stop := 40, spans := [(10, 20), (30, 40)] }

/-- A second line reusing the identifier `exon1` but differing from
`exonLine1` in every other column. -/
def otherLine : GffLine :=
  ⟨"23", "havana", "cds", "5", "-", "0", "ID=exon1;x=y", some "exon1", 30, 40⟩

/-- The invariant of a finalized record: spans nonempty, start the least
coordinate of the spans, stop the greatest. -/
def recInv (r : GffRec) : Prop :=
  r.spans ≠ [] ∧ r.start = listMin (coordsOf r.spans) ∧
    r.stop = listMax (coordsOf r.spans)

/-- Invariant of one clusterer state: unique keys in both tables, ids below
the allocation counter, every assigned gene a member of its group, and every
member of a stored group assigned to exactly that group.  The last field is
what a bridging triple destroys. -/
structure GInv (gs : GState) : Prop where
  nk_assign : (akeys gs.assign).Nodup
  nk_groups : (akeys gs.groups).Nodup
  ids_lt : ∀ i ∈ akeys gs.groups, i < gs.next
  vals_lt : ∀ g i, alook g gs.assign = some i → i < gs.next
  mem_of_assign : ∀ g i, alook g gs.assign = some i →
    ∃ ms, alook i gs.groups = some ms ∧ g ∈ ms
  assign_of_mem : ∀ i ms, alook i gs.groups = some ms → ∀ g ∈ ms,
    alook g gs.assign = some i

/-- Invariant of the whole type-keyed clusterer table. -/
def TblInv (tbl : List (String × GState)) : Prop := ∀ p ∈ tbl, GInv p.2

/-- The gene ids occurring in member rows. -/
def memGenes (st : HomState) : List String := st.member.map (fun p => p.1)

/-- A group on which `addGroup` is a no-op: some homology row of the given
relationship id holds all of the group's members, and is the only row of
that relationship id touched by any of its members. -/
def NoOpG (st : HomState) (relId : Nat) (gr : HGroup) : Prop :=
  ∃ row : Nat × Nat, row ∈ st.homology ∧ row.2 = relId ∧
    (∀ g ∈ gr.gene_ids, (g, row.1) ∈ st.member) ∧
    (∀ h2 ∈ st.homology, h2.2 = relId →
      (∃ g ∈ gr.gene_ids, (g, h2.1) ∈ st.member) → h2 = row)

/-! ## Generic lemmas about the embedded dictionary and set operations -/

theorem alook_aset_self {κ β : Type} [DecidableEq κ] (k : κ) (v : β) (m : List (κ × β)) :
    alook k (aset k v m) = some v := by
  induction m with
  | nil => simp [aset, alook]
  | cons p rest ih =>
    by_cases h : p.1 = k
    · simp [aset, h, alook]
    · simp [aset, h, alook, ih]

theorem alook_aset_ne {κ β : Type} [DecidableEq κ] {k k2 : κ} (v : β) (m : List (κ × β))
    (h : k2 ≠ k) : alook k (aset k2 v m) = alook k m := by
  induction m with
  | nil => simp [aset, alook, h]
  | cons p rest ih =>
    by_cases hp : p.1 = k2
    · simp [aset, hp, alook, h, hp ▸ h]
    · simp [aset, hp, alook, ih]


theorem akeys_cons {κ β : Type} (p : κ × β) (m : List (κ × β)) :
    akeys (p :: m) = p.1 :: akeys m := rfl

theorem akeys_append {κ β : Type} (m1 m2 : List (κ × β)) :
    akeys (m1 ++ m2) = akeys m1 ++ akeys m2 := by
  simp [akeys]

theorem alook_isSome_iff {κ β : Type} [DecidableEq κ] (k : κ) (m : List (κ × β)) :
    (alook k m).isSome = true ↔ k ∈ akeys m := by
  induction m with
  | nil => simp [alook, akeys]
  | cons p rest ih =>
    by_cases hp : p.1 = k
    · simp [alook, hp, akeys_cons]
    · simp [alook, hp, akeys_cons, ih, Ne.symm hp]

theorem alook_eq_none_iff {κ β : Type} [DecidableEq κ] (k : κ) (m : List (κ × β)) :
    alook k m = none ↔ k ∉ akeys m := by
  rw [← alook_isSome_iff]
  cases alook k m <;> simp

theorem mem_akeys_aset {κ β : Type} [DecidableEq κ] (k k2 : κ) (v : β) (m : List (κ × β)) :
    k2 ∈ akeys (aset k v m) ↔ k2 = k ∨ k2 ∈ akeys m := by
  by_cases h : k2 = k
  · subst h
    rw [← alook_isSome_iff, alook_aset_self]
    simp
  · rw [← alook_isSome_iff, alook_aset_ne v m (Ne.symm h), alook_isSome_iff]
    simp [h]

theorem akeys_aset_of_mem {κ β : Type} [DecidableEq κ] {k : κ} (v : β) {m : List (κ × β)}
    (h : k ∈ akeys m) : akeys (aset k v m) = akeys m := by
  induction m with
  | nil => simp [akeys] at h
  | cons p rest ih =>
    by_cases hp : p.1 = k
    · simp [aset, hp, akeys_cons]
    · rw [akeys_cons] at h
      rcases List.mem_cons.mp h with h1 | h1
      · exact absurd h1.symm hp
      · have hstep : aset k v (p :: rest) = p :: aset k v rest := by simp [aset, hp]
        rw [hstep, akeys_cons, akeys_cons, ih h1]

theorem akeys_aset_of_not_mem {κ β : Type} [DecidableEq κ] {k : κ} (v : β) {m : List (κ × β)}
    (h : k ∉ akeys m) : akeys (aset k v m) = akeys m ++ [k] := by
  induction m with
  | nil => simp [aset, akeys]
  | cons p rest ih =>
    rw [akeys_cons] at h
    have hp : p.1 ≠ k := fun he => h (he ▸ List.mem_cons_self p.1 (akeys rest))
    have hr : k ∉ akeys rest := fun hc => h (List.mem_cons_of_mem p.1 hc)
    have hstep : aset k v (p :: rest) = p :: aset k v rest := by simp [aset, hp]
    rw [hstep, akeys_cons, ih hr, akeys_cons]
    rfl

theorem nodup_akeys_aset {κ β : Type} [DecidableEq κ] (k : κ) (v : β) {m : List (κ × β)}
    (h : (akeys m).Nodup) : (akeys (aset k v m)).Nodup := by
  by_cases hk : k ∈ akeys m
  · rw [akeys_aset_of_mem v hk]
    exact h
  · rw [akeys_aset_of_not_mem v hk]
    simp [List.nodup_append, h, hk]

theorem mem_aset {κ β : Type} [DecidableEq κ] {k : κ} {v : β} {m : List (κ × β)} {p : κ × β}
    (h : p ∈ aset k v m) : p = (k, v) ∨ p ∈ m := by
  induction m with
  | nil =>
    simp [aset] at h
    exact .inl h
  | cons q rest ih =>
    by_cases hq : q.1 = k
    · simp [aset, hq] at h
      rcases h with h | h
      · exact .inl h
      · exact .inr (List.mem_cons_of_mem q h)
    · simp [aset, hq] at h
      rcases h with h | h
      · exact .inr (List.mem_cons.mpr (.inl h))
      · rcases ih h with h2 | h2
        · exact .inl h2
        · exact .inr (List.mem_cons_of_mem q h2)

theorem alook_mem {κ β : Type} [DecidableEq κ] {k : κ} {v : β} {m : List (κ × β)}
    (h : alook k m = some v) : (k, v) ∈ m := by
  induction m with
  | nil => simp [alook] at h
  | cons p rest ih =>
    by_cases hp : p.1 = k
    · simp [alook, hp] at h
      have hp2 : p = (k, v) := by
        cases p
        simp_all
      rw [← hp2]
      exact List.mem_cons_self p rest
    · simp [alook, hp] at h
      exact List.mem_cons_of_mem p (ih h)

theorem alook_of_mem_nodup {κ β : Type} [DecidableEq κ] {k : κ} {v : β} {m : List (κ × β)}
    (hn : (akeys m).Nodup) (h : (k, v) ∈ m) : alook k m = some v := by
  induction m with
  | nil => simp at h
  | cons p rest ih =>
    rw [akeys_cons] at hn
    have hn2 := List.nodup_cons.mp hn
    rcases List.mem_cons.mp h with h1 | h1
    · rw [← h1]
      simp [alook]
    · have hk : k ∈ akeys rest := by
        have h2 := List.mem_map_of_mem (fun q : κ × β => q.1) h1
        simpa [akeys] using h2
      have hp : p.1 ≠ k := fun he => hn2.1 (he ▸ hk)
      simp [alook, hp]
      exact ih hn2.2 h1

theorem alook_append {κ β : Type} [DecidableEq κ] (k : κ) (m1 m2 : List (κ × β)) :
    alook k (m1 ++ m2) =
      match alook k m1 with
      | some v => some v
      | none => alook k m2 := by
  induction m1 with
  | nil => simp [alook]
  | cons p rest ih =>
    by_cases hp : p.1 = k
    · simp [alook, hp]
    · simp [alook, hp, ih]

theorem alook_map_self {κ β : Type} [DecidableEq κ] (k : κ) (lst : List κ) (f : κ → β) :
    alook k (lst.map (fun x => (x, f x))) = if k ∈ lst then some (f k) else none := by
  induction lst with
  | nil => simp [alook]
  | cons x rest ih =>
    by_cases hx : x = k
    · subst hx
      simp [alook]
    · simp [alook, hx, Ne.symm hx, ih]

theorem mem_fdedupAux {α : Type} [DecidableEq α] (x : α) :
    ∀ (l seen : List α), x ∈ fdedupAux seen l ↔ x ∈ l ∧ x ∉ seen := by
  intro l
  induction l with
  | nil =>
    intro seen
    simp [fdedupAux]
  | cons a rest ih =>
    intro seen
    by_cases ha : a ∈ seen
    · rw [show fdedupAux seen (a :: rest) = fdedupAux seen rest by simp [fdedupAux, ha]]
      rw [ih seen]
      constructor
      · rintro ⟨h1, h2⟩
        exact ⟨List.mem_cons_of_mem a h1, h2⟩
      · rintro ⟨h1, h2⟩
        rcases List.mem_cons.mp h1 with h3 | h3
        · exact absurd (show x ∈ seen by rw [h3]; exact ha) h2
        · exact ⟨h3, h2⟩
    · rw [show fdedupAux seen (a :: rest) = a :: fdedupAux (a :: seen) rest by
        simp [fdedupAux, ha]]
      constructor
      · intro hmem
        rcases List.mem_cons.mp hmem with h3 | h3
        · constructor
          · rw [h3]
            exact List.mem_cons_self a rest
          · rw [h3]
            exact ha
        · have h4 := (ih (a :: seen)).mp h3
          exact ⟨List.mem_cons_of_mem a h4.1, fun hc => h4.2 (List.mem_cons_of_mem a hc)⟩
      · rintro ⟨h1, h2⟩
        by_cases hx : x = a
        · rw [hx]
          exact List.mem_cons_self a _
        · rcases List.mem_cons.mp h1 with h3 | h3
          · exact absurd h3 hx
          · refine List.mem_cons_of_mem a ((ih (a :: seen)).mpr ⟨h3, ?_⟩)
            simp [List.mem_cons, hx, h2]

theorem mem_fdedup {α : Type} [DecidableEq α] (x : α) (l : List α) :
    x ∈ fdedup l ↔ x ∈ l := by
  simp [fdedup, mem_fdedupAux]

theorem nodup_fdedupAux {α : Type} [DecidableEq α] :
    ∀ (l seen : List α), (fdedupAux seen l).Nodup := by
  intro l
  induction l with
  | nil =>
    intro seen
    simp [fdedupAux]
  | cons a rest ih =>
    intro seen
    by_cases ha : a ∈ seen
    · rw [show fdedupAux seen (a :: rest) = fdedupAux seen rest by simp [fdedupAux, ha]]
      exact ih seen
    · rw [show fdedupAux seen (a :: rest) = a :: fdedupAux (a :: seen) rest by
        simp [fdedupAux, ha]]
      refine List.nodup_cons.mpr ⟨fun hmem => ?_, ih (a :: seen)⟩
      exact ((mem_fdedupAux a rest (a :: seen)).mp hmem).2 (List.mem_cons_self a seen)

theorem nodup_fdedup {α : Type} [DecidableEq α] (l : List α) : (fdedup l).Nodup :=
  nodup_fdedupAux l []

theorem mem_uniteL {α : Type} [DecidableEq α] (x : α) (a b : List α) :
    x ∈ uniteL a b ↔ x ∈ a ∨ x ∈ b := by
  simp [uniteL]
  tauto

theorem toFinset_uniteL {α : Type} [DecidableEq α] (a b : List α) :
    (uniteL a b).toFinset = a.toFinset ∪ b.toFinset := by
  ext x
  simp [mem_uniteL]

/-! ## Lemmas about coordinate minima and maxima -/

theorem foldl_min_le_init (l : List Nat) (a : Nat) : l.foldl min a ≤ a := by
  induction l generalizing a with
  | nil => exact Nat.le_refl a
  | cons b rest ih => exact Nat.le_trans (ih (min a b)) (Nat.min_le_left a b)

theorem foldl_min_le_mem {x : Nat} (l : List Nat) (a : Nat) (h : x ∈ l) :
    l.foldl min a ≤ x := by
  induction l generalizing a with
  | nil => simp at h
  | cons b rest ih =>
    rcases List.mem_cons.mp h with h1 | h1
    · subst h1
      exact Nat.le_trans (foldl_min_le_init rest (min a x)) (Nat.min_le_right a x)
    · exact ih (min a b) h1

theorem listMin_le {x : Nat} {l : List Nat} (h : x ∈ l) : listMin l ≤ x := by
  cases l with
  | nil => simp at h
  | cons a rest =>
    rcases List.mem_cons.mp h with h1 | h1
    · subst h1
      exact foldl_min_le_init rest x
    · exact foldl_min_le_mem rest a h1

theorem init_le_foldl_max (l : List Nat) (a : Nat) : a ≤ l.foldl max a := by
  induction l generalizing a with
  | nil => exact Nat.le_refl a
  | cons b rest ih => exact Nat.le_trans (Nat.le_max_left a b) (ih (max a b))

theorem mem_le_foldl_max {x : Nat} (l : List Nat) (a : Nat) (h : x ∈ l) :
    x ≤ l.foldl max a := by
  induction l generalizing a with
  | nil => simp at h
  | cons b rest ih =>
    rcases List.mem_cons.mp h with h1 | h1
    · subst h1
      exact Nat.le_trans (Nat.le_max_right a x) (init_le_foldl_max rest (max a x))
    · exact ih (max a b) h1

theorem le_listMax {x : Nat} {l : List Nat} (h : x ∈ l) : x ≤ listMax l := by
  cases l with
  | nil => simp at h
  | cons a rest =>
    rcases List.mem_cons.mp h with h1 | h1
    · subst h1
      exact init_le_foldl_max rest x
    · exact mem_le_foldl_max rest a h1

theorem listMin_concat {xs : List Nat} (v : Nat) (h : xs ≠ []) :
    listMin (xs ++ [v]) = min (listMin xs) v := by
  cases xs with
  | nil => exact absurd rfl h
  | cons a rest => simp [listMin, List.foldl_append]

theorem listMax_concat {xs : List Nat} (v : Nat) (h : xs ≠ []) :
    listMax (xs ++ [v]) = max (listMax xs) v := by
  cases xs with
  | nil => exact absurd rfl h
  | cons a rest => simp [listMax, List.foldl_append]

theorem coordsOf_append (s1 s2 : List (Nat × Nat)) :
    coordsOf (s1 ++ s2) = coordsOf s1 ++ coordsOf s2 := by
  induction s1 with
  | nil => simp [coordsOf]
  | cons p rest ih => simp [coordsOf] at ih ⊢; simp [ih]

theorem coordsOf_ne_nil {spans : List (Nat × Nat)} (h : spans ≠ []) :
    coordsOf spans ≠ [] := by
  cases spans with
  | nil => exact absurd rfl h
  | cons p rest => simp [coordsOf]

theorem mem_coordsOf_left {a b : Nat} {spans : List (Nat × Nat)} (h : (a, b) ∈ spans) :
    a ∈ coordsOf spans := by
  induction spans with
  | nil => simp at h
  | cons p rest ih =>
    rcases List.mem_cons.mp h with h1 | h1
    · rw [← h1]
      simp [coordsOf]
    · simp [coordsOf]
      right; right
      exact ih h1

theorem mem_coordsOf_right {a b : Nat} {spans : List (Nat × Nat)} (h : (a, b) ∈ spans) :
    b ∈ coordsOf spans := by
  induction spans with
  | nil => simp at h
  | cons p rest ih =>
    rcases List.mem_cons.mp h with h1 | h1
    · rw [← h1]
      simp [coordsOf]
    · simp [coordsOf]
      right; right
      exact ih h1

/-! ## The Record Normalizer invariant and claims C5, C9, C10 -/

theorem recInv_mkRec (l : GffLine) (nm : String) (h : l.start ≤ l.stop) :
    recInv (mkRec l nm) := by
  refine ⟨by simp [mkRec], ?_, ?_⟩
  · show l.start = listMin (coordsOf [(l.start, l.stop)])
    simp [coordsOf, listMin]
    omega
  · show l.stop = listMax (coordsOf [(l.start, l.stop)])
    simp [coordsOf, listMax]
    omega

theorem recInv_update {r : GffRec} (hr : recInv r) {s e : Nat} (hse : s ≤ e) :
    recInv { r with spans := r.spans ++ [(s, e)],
                    start := min r.start s, stop := max r.stop e } := by
  obtain ⟨hne, hstart, hstop⟩ := hr
  have hco : coordsOf (r.spans ++ [(s, e)]) = (coordsOf r.spans ++ [s]) ++ [e] := by
    rw [coordsOf_append]
    simp [coordsOf]
  refine ⟨by simp, ?_, ?_⟩
  · show min r.start s = listMin (coordsOf (r.spans ++ [(s, e)]))
    rw [hco, listMin_concat e (by simp), listMin_concat s (coordsOf_ne_nil hne), ← hstart]
    omega
  · show max r.stop e = listMax (coordsOf (r.spans ++ [(s, e)]))
    rw [hco, listMax_concat e (by simp), listMax_concat s (coordsOf_ne_nil hne), ← hstop]
    omega

theorem reduceStep_inv {acc : List (String × GffRec) × Nat} {l : GffLine}
    (hl : l.start ≤ l.stop) (hacc : ∀ p ∈ acc.1, recInv p.2) :
    ∀ p ∈ (reduceStep acc l).1, recInv p.2 := by
  intro p hp
  rcases hres : alook (lineName l acc.2).1 acc.1 with _ | r
  · rw [reduceStep] at hp
    rw [hres] at hp
    simp at hp
    rcases hp with h1 | h1
    · exact hacc p h1
    · rw [h1]
      exact recInv_mkRec l _ hl
  · rw [reduceStep] at hp
    rw [hres] at hp
    simp at hp
    rcases mem_aset hp with h1 | h1
    · have hrinv : recInv r := hacc _ (alook_mem hres)
      rw [h1]
      exact recInv_update hrinv hl
    · exact hacc p h1

theorem records_inv (lines : List GffLine) :
    ∀ (acc : List (String × GffRec) × Nat),
      (∀ l ∈ lines, l.start ≤ l.stop) → (∀ p ∈ acc.1, recInv p.2) →
      ∀ p ∈ (lines.foldl reduceStep acc).1, recInv p.2 := by
  induction lines with
  | nil =>
    intro acc _ hacc
    simpa using hacc
  | cons l rest ih =>
    intro acc h1 h2
    rw [List.foldl_cons]
    exact ih (reduceStep acc l)
      (fun x hx => h1 x (List.mem_cons_of_mem l hx))
      (reduceStep_inv (h1 l (List.mem_cons_self l rest)) h2)

theorem custom_gff_records_inv {lines : List GffLine} {n : Nat}
    (h : ∀ l ∈ lines, l.start ≤ l.stop) :
    ∀ p ∈ (custom_gff_records lines n).1, recInv p.2 :=
  records_inv lines ([], n) h (by simp)

/-- C5: for every finalized record produced by the Normalizer from lines
with start ≤ stop, start is the least coordinate of its spans and stop the
greatest; and normalizing the two `ID=exon1` lines with spans (10,20) and
(30,40) yields one record with spans [(10,20),(30,40)], start 10, stop 40. -/
theorem c5_start_stop_minmax :
    (∀ (lines : List GffLine) (n : Nat), (∀ l ∈ lines, l.start ≤ l.stop) →
      ∀ p ∈ (custom_gff_records lines n).1,
        p.2.start = listMin (coordsOf p.2.spans) ∧
        p.2.stop = listMax (coordsOf p.2.spans)) ∧
    custom_gff_records [exonLine1, exonLine2] 0 = ([("exon1", exonRecMerged)], 0) := by
  constructor
  · intro lines n h p hp
    have h2 := custom_gff_records_inv h p hp
    exact ⟨h2.2.1, h2.2.2⟩
  · decide

/-- Witness for C5: the hypothesis holds of the concrete scenario-1 input,
and the theorem yields the min/max property of its single record. -/
theorem c5_witness :
    ("exon1", exonRecMerged) ∈ (custom_gff_records [exonLine1, exonLine2] 0).1 ∧
    exonRecMerged.start = listMin (coordsOf exonRecMerged.spans) ∧
    exonRecMerged.stop = listMax (coordsOf exonRecMerged.spans) :=
  ⟨by decide,
   c5_start_stop_minmax.1 [exonLine1, exonLine2] 0 (by decide)
     ("exon1", exonRecMerged) (by decide)⟩

/-- C9 counterexample: re-adding the identical `exon1` line does not leave
the record equal to the single-occurrence record — the span list gains a
duplicate entry. -/
theorem c9_counterexample :
    alook "exon1" (custom_gff_records [exonLine1, exonLine1] 0).1 ≠
      alook "exon1" (custom_gff_records [exonLine1] 0).1 := by
  decide

theorem reduceStep_some {acc : List (String × GffRec) × Nat} {l : GffLine} (nm : String)
    (r : GffRec) (hnm : l.name = some nm) (hr : alook nm acc.1 = some r) :
    reduceStep acc l =
      (aset nm { r with spans := r.spans ++ [(l.start, l.stop)],
                        start := min r.start l.start,
                        stop := max r.stop l.stop } acc.1, acc.2) := by
  simp [reduceStep, lineName, hnm, hr]

theorem reduceStep_absent {acc : List (String × GffRec) × Nat} {l : GffLine} (nm : String)
    (hnm : l.name = some nm) (hr : alook nm acc.1 = none) :
    reduceStep acc l = (acc.1 ++ [(nm, mkRec l nm)], acc.2) := by
  simp [reduceStep, lineName, hnm, hr]

/-- C9 (amended): re-adding a line whose identifier is already present with
an already-recorded (start, stop) span creates no record and no error and
leaves the key set, start and stop unchanged; the only change is one
duplicate span appended to that record's span list. -/
theorem c9_amended_duplicate_span (lines : List GffLine) (l : GffLine) (nm : String)
    (r : GffRec) (n : Nat)
    (hse : ∀ x ∈ lines, x.start ≤ x.stop)
    (hnm : l.name = some nm)
    (hr : alook nm (custom_gff_records lines n).1 = some r)
    (hsp : (l.start, l.stop) ∈ r.spans) :
    custom_gff_records (lines ++ [l]) n =
      (aset nm { r with spans := r.spans ++ [(l.start, l.stop)] }
        (custom_gff_records lines n).1,
       (custom_gff_records lines n).2) ∧
    akeys (custom_gff_records (lines ++ [l]) n).1 =
      akeys (custom_gff_records lines n).1 := by
  have hinv : recInv r := custom_gff_records_inv hse _ (alook_mem hr)
  have hmin : min r.start l.start = r.start := by
    have := listMin_le (mem_coordsOf_left hsp)
    rw [← hinv.2.1] at this
    omega
  have hmax : max r.stop l.stop = r.stop := by
    have := le_listMax (mem_coordsOf_right hsp)
    rw [← hinv.2.2] at this
    omega
  have hstep : custom_gff_records (lines ++ [l]) n =
      reduceStep (custom_gff_records lines n) l := by
    rw [custom_gff_records, List.foldl_append]
    rfl
  have hmain : custom_gff_records (lines ++ [l]) n =
      (aset nm { r with spans := r.spans ++ [(l.start, l.stop)] }
        (custom_gff_records lines n).1,
       (custom_gff_records lines n).2) := by
    rw [hstep, reduceStep_some nm r hnm hr, hmin, hmax]
  refine ⟨hmain, ?_⟩
  rw [hmain]
  exact akeys_aset_of_mem _ ((alook_isSome_iff nm _).mp (by simp [hr]))

/-- Witness for C9: the amended statement at the concrete duplicated line. -/
theorem c9_witness :
    custom_gff_records ([exonLine1] ++ [exonLine1]) 0 =
      (aset "exon1" { exonRec1 with spans := exonRec1.spans ++ [(10, 20)] }
        (custom_gff_records [exonLine1] 0).1,
       (custom_gff_records [exonLine1] 0).2) ∧
    akeys (custom_gff_records ([exonLine1] ++ [exonLine1]) 0).1 =
      akeys (custom_gff_records [exonLine1] 0).1 :=
  c9_amended_duplicate_span [exonLine1] exonLine1 "exon1" exonRec1 0
    (by decide) (by decide) (by decide) (by decide)

/-- C10: two lines yielding the same identifier merge into the record built
from the first line: the second line contributes only its appended span and
the start/stop widening, and all of its other column values are discarded. -/
theorem c10_first_line_wins (l1 l2 : GffLine) (nm : String)
    (h1 : l1.name = some nm) (h2 : l2.name = some nm) :
    custom_gff_records [l1, l2] 0 =
      ([(nm, { seqid := l1.seqid, source := l1.source, biotype := l1.biotype,
               score := l1.score, strand := l1.strand, phase := l1.phase,
               attrs := l1.attrs, name := nm,
               start := min l1.start l2.start, stop := max l1.stop l2.stop,
               spans := [(l1.start, l1.stop), (l2.start, l2.stop)] })], 0) := by
  have s1 : reduceStep ([], 0) l1 = ([(nm, mkRec l1 nm)], 0) :=
    reduceStep_absent nm h1 rfl
  show reduceStep (reduceStep ([], 0) l1) l2 = _
  rw [s1, reduceStep_some nm (mkRec l1 nm) h2 (by simp [alook])]
  simp [aset, mkRec]

/-- Witness for C10: the two concrete lines share `exon1` but differ in
every other column; the result keeps the first line's columns. -/
theorem c10_witness :
    custom_gff_records [exonLine1, otherLine] 0 =
      ([("exon1", { seqid := "22", source := "ensembl", biotype := "exon",
                    score := ".", strand := "+", phase := ".",
                    attrs := "ID=exon1", name := "exon1",
                    start := 10, stop := 40,
                    spans := [(10, 20), (30, 40)] })], 0) :=
  c10_first_line_wins exonLine1 otherLine "exon1" rfl rfl

/-! ## Claims C8 (feature store duplicate ids) and C3 (relationship builder) -/

/-- C8 counterexample: adding a second feature with an already-present
stable identifier is not rejected — the store ends up modified, holding two
rows with that stable identifier. -/
theorem c8_counterexample :
    ((add_feature (add_feature emptyGffDb dupFeature).1 dupFeature).1.feature.filter
        (fun r => decide (r.stableid = "gene:x"))).length = 2 ∧
    (add_feature (add_feature emptyGffDb dupFeature).1 dupFeature).1 ≠
      (add_feature emptyGffDb dupFeature).1 := by
  constructor
  · decide
  · decide

/-- C8 (amended): `add_feature` never rejects a duplicate stable identifier
— the schema places no uniqueness constraint on `stableid` — so every call
appends exactly one new row (carrying the given stable id and a fresh
surrogate id) to the feature table, whatever the store already contains. -/
theorem c8_add_feature_amended (db : GffDb) (f : FeatIn) :
    (add_feature db f).1.feature =
      db.feature ++
        [⟨f.seqid, f.source, f.score, f.strand, f.phase, f.attributes, f.comments,
          f.stableid, f.canonical,
          orCoord f.start (listMin (coordsOf f.spans)),
          orCoord f.stop (listMax (coordsOf f.spans)),
          f.spans, (getBiotypeId db f.biotype).2, db.featureNext⟩] ∧
    (add_feature db f).1.featureNext = db.featureNext + 1 := by
  rcases hbt : alook f.biotype db.biotype with _ | i <;>
    simp [add_feature, getBiotypeId, hbt]

/-- C3: on a gene named `gene:g1` with two mRNAs and two CDS records, the
Relationship Builder returns only the descendants contributed by the last
CDS processed — `genes.get(gene.stableid, set())` looks up the stripped
stable id `g1` while entries are stored under the record keyed by the full
name `gene:g1`, so the accumulation set restarts empty on every CDS. -/
theorem c3_gene_relationships_bug :
    (make_gene_relationships c3Records).toOption =
      some [("gene:g1", ({"cds:c2", "mrna:m2"} : Finset String))] ∧
    "cds:c1" ∉ ({"cds:c2", "mrna:m2"} : Finset String) := by
  constructor
  · decide
  · decide

/-! ## The Homology Clusterer invariant and claims C1, C6 -/

theorem mem_pairOf (x g1 g2 : String) : x ∈ pairOf g1 g2 ↔ x = g1 ∨ x = g2 := by
  simp [pairOf, mem_fdedup]

theorem GInv_empty : GInv emptyG := by
  constructor <;> simp [emptyG, akeys, alook]

theorem alook_map_val {κ β γ : Type} [DecidableEq κ] (k : κ) (m : List (κ × β)) (f : β → γ) :
    alook k (m.map (fun p => (p.1, f p.2))) = (alook k m).map f := by
  induction m with
  | nil => simp [alook]
  | cons p rest ih =>
    by_cases hp : p.1 = k
    · simp [alook, hp]
    · simp [alook, hp, ih]


theorem gtarget_of_first {gs : GState} {g1 g2 : String} {i : Nat}
    (h : alook g1 gs.assign = some i) : gtarget gs g1 g2 = some i := by
  simp [gtarget, h]

theorem gtarget_of_second {gs : GState} {g1 g2 : String} {j : Nat}
    (h1 : alook g1 gs.assign = none) (h2 : alook g2 gs.assign = some j) :
    gtarget gs g1 g2 = some j := by
  simp [gtarget, h1, h2]

theorem gtarget_of_none {gs : GState} {g1 g2 : String}
    (h1 : alook g1 gs.assign = none) (h2 : alook g2 gs.assign = none) :
    gtarget gs g1 g2 = none := by
  simp [gtarget, h1, h2]

theorem gstep_target {gs : GState} {g1 g2 : String} {t : Nat}
    (ht : gtarget gs g1 g2 = some t) :
    gstep gs g1 g2 =
      ⟨aset g2 t (aset g1 t gs.assign),
       aset t (uniteL ((alook t gs.groups).getD []) (pairOf g1 g2)) gs.groups,
       gs.next⟩ := by
  simp [gstep, ht]

theorem gstep_fresh {gs : GState} {g1 g2 : String}
    (ht : gtarget gs g1 g2 = none) :
    gstep gs g1 g2 =
      ⟨aset g2 gs.next (aset g1 gs.next gs.assign),
       gs.groups ++ [(gs.next, pairOf g1 g2)], gs.next + 1⟩ := by
  simp [gstep, ht]

theorem GInv_target {gs : GState} {g1 g2 : String} {t : Nat} (hinv : GInv gs)
    (htv : ∃ g0, alook g0 gs.assign = some t)
    (hg1 : ∀ i, alook g1 gs.assign = some i → i = t)
    (hg2 : ∀ j, alook g2 gs.assign = some j → j = t) :
    GInv ⟨aset g2 t (aset g1 t gs.assign),
          aset t (uniteL ((alook t gs.groups).getD []) (pairOf g1 g2)) gs.groups,
          gs.next⟩ := by
  obtain ⟨g0, hg0⟩ := htv
  have htlt : t < gs.next := hinv.vals_lt g0 t hg0
  obtain ⟨ms0, hms0, hg0m⟩ := hinv.mem_of_assign g0 t hg0
  have hgetd : (alook t gs.groups).getD [] = ms0 := by rw [hms0]; rfl
  have hm1 : g1 ∈ uniteL ((alook t gs.groups).getD []) (pairOf g1 g2) :=
    (mem_uniteL _ _ _).mpr (.inr ((mem_pairOf _ _ _).mpr (.inl rfl)))
  have hm2 : g2 ∈ uniteL ((alook t gs.groups).getD []) (pairOf g1 g2) :=
    (mem_uniteL _ _ _).mpr (.inr ((mem_pairOf _ _ _).mpr (.inr rfl)))
  have hlook2 : ∀ g : String, alook g (aset g2 t (aset g1 t gs.assign)) =
      if g = g2 ∨ g = g1 then some t else alook g gs.assign := by
    intro g
    by_cases hgg2 : g = g2
    · subst hgg2
      simp [alook_aset_self]
    · rw [alook_aset_ne _ _ (fun he => hgg2 he.symm)]
      by_cases hgg1 : g = g1
      · subst hgg1
        simp [alook_aset_self]
      · rw [alook_aset_ne _ _ (fun he => hgg1 he.symm)]
        simp [hgg1, hgg2]
  constructor
  case nk_assign =>
    exact nodup_akeys_aset g2 t (nodup_akeys_aset g1 t hinv.nk_assign)
  case nk_groups =>
    exact nodup_akeys_aset t _ hinv.nk_groups
  case ids_lt =>
    intro i hi
    replace hi : i ∈ akeys (aset t (uniteL ((alook t gs.groups).getD [])
      (pairOf g1 g2)) gs.groups) := hi
    show i < gs.next
    rcases (mem_akeys_aset t i _ gs.groups).mp hi with h | h
    · rw [h]
      exact htlt
    · exact hinv.ids_lt i h
  case vals_lt =>
    intro g i hgi
    replace hgi : alook g (aset g2 t (aset g1 t gs.assign)) = some i := hgi
    show i < gs.next
    rw [hlook2 g] at hgi
    by_cases hgg : g = g2 ∨ g = g1
    · rw [if_pos hgg] at hgi
      injection hgi with h
      rw [← h]
      exact htlt
    · rw [if_neg hgg] at hgi
      exact hinv.vals_lt g i hgi
  case mem_of_assign =>
    intro g i hgi
    replace hgi : alook g (aset g2 t (aset g1 t gs.assign)) = some i := hgi
    show ∃ ms, alook i (aset t (uniteL ((alook t gs.groups).getD [])
        (pairOf g1 g2)) gs.groups) = some ms ∧ g ∈ ms
    rw [hlook2 g] at hgi
    by_cases hgg : g = g2 ∨ g = g1
    · rw [if_pos hgg] at hgi
      injection hgi with h
      refine ⟨uniteL ((alook t gs.groups).getD []) (pairOf g1 g2),
        by rw [← h]; exact alook_aset_self t _ gs.groups, ?_⟩
      rcases hgg with h2 | h2
      · rw [h2]
        exact hm2
      · rw [h2]
        exact hm1
    · rw [if_neg hgg] at hgi
      obtain ⟨ms, hms, hgm⟩ := hinv.mem_of_assign g i hgi
      by_cases hit : i = t
      · refine ⟨uniteL ((alook t gs.groups).getD []) (pairOf g1 g2),
          by rw [hit]; exact alook_aset_self t _ gs.groups, ?_⟩
        have hmse : ms = ms0 := by
          rw [hit] at hms
          rw [hms] at hms0
          injection hms0
        rw [hgetd]
        exact (mem_uniteL _ _ _).mpr (.inl (hmse ▸ hgm))
      · refine ⟨ms, ?_, hgm⟩
        rw [alook_aset_ne _ _ (fun he => hit he.symm)]
        exact hms
  case assign_of_mem =>
    intro i ms2 hms2 g hgm
    replace hms2 : alook i (aset t (uniteL ((alook t gs.groups).getD [])
        (pairOf g1 g2)) gs.groups) = some ms2 := hms2
    show alook g (aset g2 t (aset g1 t gs.assign)) = some i
    rw [hlook2 g]
    by_cases hit : i = t
    · rw [hit, alook_aset_self] at hms2
      injection hms2 with hmse
      rw [← hmse] at hgm
      rcases (mem_uniteL _ _ _).mp hgm with h | h
      · rw [hgetd] at h
        have hga := hinv.assign_of_mem t ms0 hms0 g h
        by_cases hgg : g = g2 ∨ g = g1
        · rw [if_pos hgg, hit]
        · rw [if_neg hgg, hit]
          exact hga
      · have hgg : g = g2 ∨ g = g1 := by
          rcases (mem_pairOf _ _ _).mp h with h2 | h2
          · exact .inr h2
          · exact .inl h2
        rw [if_pos hgg, hit]
    · rw [alook_aset_ne _ _ (fun he => hit he.symm)] at hms2
      have hga := hinv.assign_of_mem i ms2 hms2 g hgm
      have hgg : ¬ (g = g2 ∨ g = g1) := by
        rintro (h | h)
        · rw [h] at hga
          exact hit (hg2 i hga)
        · rw [h] at hga
          exact hit (hg1 i hga)
      rw [if_neg hgg]
      exact hga

theorem GInv_fresh {gs : GState} {g1 g2 : String} (hinv : GInv gs)
    (h1 : alook g1 gs.assign = none) (h2 : alook g2 gs.assign = none) :
    GInv ⟨aset g2 gs.next (aset g1 gs.next gs.assign),
          gs.groups ++ [(gs.next, pairOf g1 g2)], gs.next + 1⟩ := by
  have hnk : gs.next ∉ akeys gs.groups := fun hc =>
    Nat.lt_irrefl gs.next (hinv.ids_lt gs.next hc)
  have hlooknew : alook gs.next (gs.groups ++ [(gs.next, pairOf g1 g2)]) =
      some (pairOf g1 g2) := by
    rw [alook_append, (alook_eq_none_iff _ _).mpr hnk]
    simp [alook]
  have hlook2 : ∀ g : String, alook g (aset g2 gs.next (aset g1 gs.next gs.assign)) =
      if g = g2 ∨ g = g1 then some gs.next else alook g gs.assign := by
    intro g
    by_cases hgg2 : g = g2
    · subst hgg2
      simp [alook_aset_self]
    · rw [alook_aset_ne _ _ (fun he => hgg2 he.symm)]
      by_cases hgg1 : g = g1
      · subst hgg1
        simp [alook_aset_self]
      · rw [alook_aset_ne _ _ (fun he => hgg1 he.symm)]
        simp [hgg1, hgg2]
  constructor
  case nk_assign =>
    exact nodup_akeys_aset g2 gs.next (nodup_akeys_aset g1 gs.next hinv.nk_assign)
  case nk_groups =>
    show (akeys (gs.groups ++ [(gs.next, pairOf g1 g2)])).Nodup
    rw [akeys_append]
    refine List.Nodup.append hinv.nk_groups (by simp [akeys]) ?_
    intro x hx hx2
    have hxe : x = gs.next := by simpa [akeys] using hx2
    exact hnk (hxe ▸ hx)
  case ids_lt =>
    intro i hi
    replace hi : i ∈ akeys (gs.groups ++ [(gs.next, pairOf g1 g2)]) := hi
    show i < gs.next + 1
    rw [akeys_append] at hi
    rcases List.mem_append.mp hi with h | h
    · exact Nat.lt_trans (hinv.ids_lt i h) (Nat.lt_succ_self _)
    · have hie : i = gs.next := by simpa [akeys] using h
      rw [hie]
      exact Nat.lt_succ_self _
  case vals_lt =>
    intro g i hgi
    replace hgi : alook g (aset g2 gs.next (aset g1 gs.next gs.assign)) = some i := hgi
    show i < gs.next + 1
    rw [hlook2 g] at hgi
    by_cases hgg : g = g2 ∨ g = g1
    · rw [if_pos hgg] at hgi
      injection hgi with h
      omega
    · rw [if_neg hgg] at hgi
      exact Nat.lt_trans (hinv.vals_lt g i hgi) (Nat.lt_succ_self _)
  case mem_of_assign =>
    intro g i hgi
    replace hgi : alook g (aset g2 gs.next (aset g1 gs.next gs.assign)) = some i := hgi
    show ∃ ms, alook i (gs.groups ++ [(gs.next, pairOf g1 g2)]) = some ms ∧ g ∈ ms
    rw [hlook2 g] at hgi
    by_cases hgg : g = g2 ∨ g = g1
    · rw [if_pos hgg] at hgi
      injection hgi with h
      refine ⟨pairOf g1 g2, by rw [← h]; exact hlooknew, ?_⟩
      rcases hgg with h2 | h2
      · rw [h2]
        exact (mem_pairOf _ _ _).mpr (.inr rfl)
      · rw [h2]
        exact (mem_pairOf _ _ _).mpr (.inl rfl)
    · rw [if_neg hgg] at hgi
      obtain ⟨ms, hms, hgm⟩ := hinv.mem_of_assign g i hgi
      refine ⟨ms, ?_, hgm⟩
      rw [alook_append, hms]
  case assign_of_mem =>
    intro i ms2 hms2 g hgm
    replace hms2 : alook i (gs.groups ++ [(gs.next, pairOf g1 g2)]) = some ms2 := hms2
    show alook g (aset g2 gs.next (aset g1 gs.next gs.assign)) = some i
    rw [hlook2 g]
    rw [alook_append] at hms2
    rcases holdi : alook i gs.groups with _ | msold
    · rw [holdi] at hms2
      simp [alook] at hms2
      obtain ⟨hie, hmse⟩ := hms2
      rw [← hmse] at hgm
      have hgg : g = g2 ∨ g = g1 := by
        rcases (mem_pairOf _ _ _).mp hgm with h | h
        · exact .inr h
        · exact .inl h
      rw [if_pos hgg, hie]
    · rw [holdi] at hms2
      simp at hms2
      rw [← hms2] at hgm
      have hga := hinv.assign_of_mem i msold holdi g hgm
      have hgg : ¬ (g = g2 ∨ g = g1) := by
        rintro (h | h)
        · rw [h] at hga
          rw [hga] at h2
          cases h2
        · rw [h] at hga
          rw [hga] at h1
          cases h1
      rw [if_neg hgg]
      exact hga

theorem GInv_gstep {gs : GState} {g1 g2 : String} (hinv : GInv gs)
    (hnb : ∀ i j, alook g1 gs.assign = some i → alook g2 gs.assign = some j → i = j) :
    GInv (gstep gs g1 g2) := by
  rcases h1 : alook g1 gs.assign with _ | i
  · rcases h2 : alook g2 gs.assign with _ | j
    · rw [gstep_fresh (gtarget_of_none h1 h2)]
      exact GInv_fresh hinv h1 h2
    · rw [gstep_target (gtarget_of_second h1 h2)]
      refine GInv_target hinv ⟨g2, h2⟩ (fun i2 hi2 => ?_) (fun j2 hj2 => ?_)
      · rw [h1] at hi2
        cases hi2
      · rw [h2] at hj2
        injection hj2 with h
        exact h.symm
  · rw [gstep_target (gtarget_of_first h1)]
    refine GInv_target hinv ⟨g1, h1⟩ (fun i2 hi2 => ?_) (fun j hj => ?_)
    · rw [h1] at hi2
      injection hi2 with h
      exact h.symm
    · exact (hnb i j h1 hj).symm

theorem TblInv_cstep {tbl : List (String × GState)} {e : HTriple}
    (hinv : TblInv tbl) (hb : isBridge tbl e = false) : TblInv (cstep tbl e) := by
  intro p hp
  rcases mem_aset hp with h | h
  · rw [h]
    have hgs : GInv ((alook e.1 tbl).getD emptyG) := by
      rcases hl : alook e.1 tbl with _ | gs0
      · simpa using GInv_empty
      · simpa using hinv _ (alook_mem hl)
    refine GInv_gstep hgs (fun i j hi hj => ?_)
    rw [isBridge] at hb
    rw [hi, hj] at hb
    simpa using hb
  · exact hinv p h

theorem TblInv_run : ∀ (data : List HTriple) (tbl : List (String × GState)),
    bridgeFreeAux tbl data = true → TblInv tbl → TblInv (data.foldl cstep tbl) := by
  intro data
  induction data with
  | nil =>
    intro tbl _ hinv
    simpa using hinv
  | cons e rest ih =>
    intro tbl hb hinv
    rw [bridgeFreeAux] at hb
    have hb2 := Bool.and_eq_true_iff.mp hb
    rw [List.foldl_cons]
    exact ih (cstep tbl e) hb2.2
      (TblInv_cstep hinv (by simpa using hb2.1))

theorem liveGroups_pairwise {gs : GState} (hinv : GInv gs) :
    (liveGroups gs).Pairwise (fun G1 G2 => ∀ g ∈ G1, g ∉ G2) := by
  rw [liveGroups]
  rw [List.pairwise_map]
  have hnd : (liveIds gs).Nodup := nodup_fdedup _
  refine List.Pairwise.imp_of_mem ?_ hnd
  intro i j _ _ hij g hgi hgj
  rcases hli : alook i gs.groups with _ | msi
  · rw [hli] at hgi
    simp at hgi
  · rcases hlj : alook j gs.groups with _ | msj
    · rw [hlj] at hgj
      simp at hgj
    · rw [hli] at hgi
      rw [hlj] at hgj
      simp at hgi hgj
      have ha1 := hinv.assign_of_mem i msi hli g hgi
      have ha2 := hinv.assign_of_mem j msj hlj g hgj
      rw [ha1] at ha2
      injection ha2 with h
      exact hij h

/-- C1 counterexample: the bridging input of scenario 3 produces, for type
`ortho`, the two groups {a,b,c} and {c,d}, which overlap at `c` — the
output is not a collection of pairwise disjoint groups. -/
theorem c1_counterexample :
    alook "ortho" (grouped_related bridgeData) =
      some [["a", "b", "c"], ["c", "d"]] ∧
    ¬ ([["a", "b", "c"], ["c", "d"]] : List (List String)).Pairwise
        (fun G1 G2 => ∀ g ∈ G1, g ∉ G2) := by
  constructor
  · decide
  · decide

/-- C1 (amended): for every bridge-free input — no triple arrives with its
two gene ids already assigned to different groups of its relationship type —
the groups `grouped_related` reports for each relationship type are pairwise
disjoint; a bridging triple can instead leave two reported groups
overlapping, as the counterexample shows. -/
theorem c1_bridge_free_disjoint (data : List HTriple)
    (hb : bridgeFree data = true) :
    ∀ t gl, alook t (grouped_related data) = some gl →
      gl.Pairwise (fun G1 G2 => ∀ g ∈ G1, g ∉ G2) := by
  have hinv : TblInv (runGrouped data) := TblInv_run data [] hb (by intro p hp; simp at hp)
  intro t gl hgl
  rw [grouped_related] at hgl
  rw [alook_map_val] at hgl
  rcases hrun : alook t (runGrouped data) with _ | gs
  · rw [hrun] at hgl
    cases hgl
  · rw [hrun] at hgl
    injection hgl with h
    rw [← h]
    exact liveGroups_pairwise (hinv _ (alook_mem hrun))

/-- Witness for C1: a concrete bridge-free input whose `ortho` groups the
theorem proves disjoint. -/
theorem c1_witness :
    alook "ortho" (grouped_related freeData) = some [["a", "b", "c"]] ∧
    ([["a", "b", "c"]] : List (List String)).Pairwise
      (fun G1 G2 => ∀ g ∈ G1, g ∉ G2) :=
  ⟨by decide,
   c1_bridge_free_disjoint freeData (by decide) "ortho" [["a", "b", "c"]] (by decide)⟩

/-- C6: feeding the Clusterer (ortho,g1,g2) then (ortho,g2,g3) produces
exactly one group for `ortho`, with members {g1,g2,g3}; and in general the
union target of a triple is the first gene id's group whenever that gene is
mapped (even if the second gene maps to a different group), else the second
gene id's group when only that one is mapped. -/
theorem c6_clusterer_scenario :
    alook "ortho" (grouped_related chainData) = some [["g1", "g2", "g3"]] ∧
    (∀ (gs : GState) (g1 g2 : String) (i : Nat),
      alook g1 gs.assign = some i → gtarget gs g1 g2 = some i) ∧
    (∀ (gs : GState) (g1 g2 : String) (j : Nat),
      alook g1 gs.assign = none → alook g2 gs.assign = some j →
        gtarget gs g1 g2 = some j) := by
  refine ⟨by decide, ?_, ?_⟩
  · intro gs g1 g2 i h
    exact gtarget_of_first h
  · intro gs g1 g2 j h1 h2
    exact gtarget_of_second h1 h2

/-- Witness for C6: the tie-break at a concrete state in which `g2` is
mapped to group 0 and `g3` to group 1 — the first gene's group wins. -/
theorem c6_witness :
    gtarget ⟨[("g2", 0), ("g3", 1)], [(0, ["g1", "g2"]), (1, ["g3", "g4"])], 2⟩
      "g2" "g3" = some 0 :=
  c6_clusterer_scenario.2.1
    ⟨[("g2", 0), ("g3", 1)], [(0, ["g1", "g2"]), (1, ["g3", "g4"])], 2⟩
    "g2" "g3" 0 (by decide)

/-! ## The Homology Store and claims C4, C7 -/

theorem mem_memGenes {st : HomState} {g : String} {h : Nat}
    (hc : (g, h) ∈ st.member) : g ∈ memGenes st := by
  have h2 := List.mem_map_of_mem (fun p : String × Nat => p.1) hc
  simpa [memGenes] using h2

theorem find?_pred_unique {α : Type} {p : α → Bool} {l : List α} {a : α}
    (ha : a ∈ l) (hpa : p a = true)
    (huniq : ∀ x ∈ l, p x = true → x = a) : l.find? p = some a := by
  induction l with
  | nil => simp at ha
  | cons b rest ih =>
    by_cases hpb : p b = true
    · have hba : b = a := huniq b (List.mem_cons_self b rest) hpb
      subst hba
      simp only [List.find?]
      rw [hpa]
    · have hbne : b ≠ a := fun he => hpb (he ▸ hpa)
      rcases List.mem_cons.mp ha with h | h
      · exact absurd h.symm hbne
      · simp only [List.find?, Bool.eq_false_iff.mpr hpb, cond_false]
        exact ih h (fun x hx hpx => huniq x (List.mem_cons_of_mem b hx) hpx)

theorem findGroupId_none {st : HomState} {relId : Nat} {gids : List String}
    (hf : ∀ g ∈ gids, g ∉ memGenes st) :
    findGroupId st relId gids = none := by
  rw [findGroupId]
  have hfind : st.homology.find?
      (fun h => decide (h.2 = relId) && gids.any (fun g => memHas st g h.1)) = none := by
    apply List.find?_eq_none.mpr
    intro h _
    have hany : gids.any (fun g => memHas st g h.1) = false := by
      apply List.any_eq_false.mpr
      intro g hg
      rw [memHas]
      simp
      intro hc
      exact absurd (mem_memGenes hc) (hf g hg)
    simp [hany]
  rw [hfind]
  rfl

theorem addGroup_fresh {st : HomState} {relId : Nat} {gids : List String}
    (hf : ∀ g ∈ gids, g ∉ memGenes st) :
    addGroup st relId gids =
      { st with homology := st.homology ++ [(st.homNext, relId)],
                homNext := st.homNext + 1,
                member := st.member ++ gids.map (fun g => (g, st.homNext)) } := by
  have hfind : findGroupId st relId gids = none := findGroupId_none hf
  have hfil : gids.filter (fun g => !decide ((g, st.homNext) ∈ st.member)) = gids := by
    apply List.filter_eq_self.mpr
    intro g hg
    simp
    intro hc
    exact absurd (mem_memGenes hc) (hf g hg)
  simp [addGroup, hfind, insertMembers, hfil]

theorem addGroup_noop {st : HomState} {relId : Nat} {gr : HGroup}
    (hno : NoOpG st relId gr) (hne : gr.gene_ids ≠ []) :
    addGroup st relId gr.gene_ids = st := by
  obtain ⟨row, hrmem, hrrel, hmemin, huniq⟩ := hno
  obtain ⟨g0, hg0⟩ := List.exists_mem_of_ne_nil gr.gene_ids hne
  have hfind : findGroupId st relId gr.gene_ids = some row.1 := by
    rw [findGroupId]
    have hpred : (fun h => decide (h.2 = relId) &&
        gr.gene_ids.any (fun g => memHas st g h.1)) row = true := by
      simp [hrrel, List.any_eq_true]
      exact ⟨g0, hg0, by simp [memHas, hmemin g0 hg0]⟩
    rw [find?_pred_unique hrmem hpred ?_]
    · rfl
    · intro x hx hpx
      simp [List.any_eq_true, memHas] at hpx
      obtain ⟨hxrel, g, hg, hgm⟩ := hpx
      exact huniq x hx hxrel ⟨g, hg, hgm⟩
  have hfil : gr.gene_ids.filter (fun g => !decide ((g, row.1) ∈ st.member)) = [] := by
    apply List.filter_eq_nil_iff.mpr
    intro g hg
    simp
    exact hmemin g hg
  simp [addGroup, hfind, insertMembers, hfil]

theorem addLoop_noop {t : String} {relId : Nat} {st : HomState} :
    ∀ rs : List HGroup, (∀ gr ∈ rs, gr.relationship = t) →
    (∀ gr ∈ rs, NoOpG st relId gr ∧ gr.gene_ids ≠ []) →
    addLoop t relId st rs = .ok st := by
  intro rs
  induction rs with
  | nil => intro _ _; rfl
  | cons gr rest ih =>
    intro h1 h2
    rw [addLoop, if_pos (h1 gr (List.mem_cons_self gr rest))]
    rw [addGroup_noop (h2 gr (List.mem_cons_self gr rest)).1
      (h2 gr (List.mem_cons_self gr rest)).2]
    exact ih (fun x hx => h1 x (List.mem_cons_of_mem gr hx))
      (fun x hx => h2 x (List.mem_cons_of_mem gr hx))

theorem akeys_map_pair (lst : List String) (n : Nat) :
    akeys (lst.map (fun g => (g, n))) = lst := by
  induction lst with
  | nil => rfl
  | cons a rest ih =>
    show (a, n).1 :: akeys (rest.map (fun g => (g, n))) = a :: rest
    rw [ih]

theorem add_records_eq (st : HomState) (records : List HGroup) (rt : String) :
    add_records st records rt =
      addLoop rt (makeRelTypeId st rt).2 (makeRelTypeId st rt).1 records := rfl

theorem addLoop_fresh (t : String) (relId : Nat) :
    ∀ (rs : List HGroup) (st : HomState),
    (∀ gr ∈ rs, gr.relationship = t) →
    (∀ gr ∈ rs, gr.gene_ids ≠ []) →
    rs.Pairwise (fun a b => ∀ x ∈ a.gene_ids, x ∉ b.gene_ids) →
    (∀ gr ∈ rs, ∀ g ∈ gr.gene_ids, g ∉ memGenes st) →
    (∀ h ∈ st.homology, h.1 < st.homNext) →
    (∀ p ∈ st.member, p.2 < st.homNext) →
    ∃ st2, addLoop t relId st rs = .ok st2 ∧
      st2.relationship = st.relationship ∧
      st2.relNext = st.relNext ∧
      st.homNext ≤ st2.homNext ∧
      (∀ h ∈ st.homology, h ∈ st2.homology) ∧
      (∀ h ∈ st2.homology, h ∈ st.homology ∨ st.homNext ≤ h.1) ∧
      (∀ p ∈ st.member, p ∈ st2.member) ∧
      (∀ p ∈ st2.member, p ∈ st.member ∨
        ((∃ gr ∈ rs, p.1 ∈ gr.gene_ids) ∧ st.homNext ≤ p.2)) ∧
      (∀ gr ∈ rs, NoOpG st2 relId gr) := by
  intro rs
  induction rs with
  | nil =>
    intro st _ _ _ _ _ _
    exact ⟨st, rfl, rfl, rfl, Nat.le_refl _, fun h hh => hh, fun h hh => .inl hh,
      fun p hp => hp, fun p hp => .inl hp, fun gr hgr => absurd hgr (List.not_mem_nil gr)⟩
  | cons gr rest ih =>
    intro st hrel hne hpd hfresh hhlt hmlt
    have hgrmem := List.mem_cons_self gr rest
    have hfr : ∀ g ∈ gr.gene_ids, g ∉ memGenes st := hfresh gr hgrmem
    have hstep : addGroup st relId gr.gene_ids =
        { st with homology := st.homology ++ [(st.homNext, relId)],
                  homNext := st.homNext + 1,
                  member := st.member ++ gr.gene_ids.map (fun g => (g, st.homNext)) } :=
      addGroup_fresh hfr
    set st1 : HomState :=
      { st with homology := st.homology ++ [(st.homNext, relId)],
                homNext := st.homNext + 1,
                member := st.member ++ gr.gene_ids.map (fun g => (g, st.homNext)) }
      with hst1
    obtain ⟨hhead, htail⟩ := List.pairwise_cons.mp hpd
    have hmemnew : ∀ (g2 : String) (h2 : Nat),
        (g2, h2) ∈ gr.gene_ids.map (fun g => (g, st.homNext)) →
        g2 ∈ gr.gene_ids ∧ h2 = st.homNext := by
      intro g2 h2 hm
      rcases List.mem_map.mp hm with ⟨g, hg, he⟩
      injection he with he1 he2
      exact ⟨he1 ▸ hg, he2.symm⟩
    have hmg : memGenes st1 = memGenes st ++ gr.gene_ids := by
      show akeys (st.member ++ gr.gene_ids.map (fun g => (g, st.homNext))) =
        akeys st.member ++ gr.gene_ids
      rw [akeys_append, akeys_map_pair]
    have hfresh1 : ∀ gr2 ∈ rest, ∀ g ∈ gr2.gene_ids, g ∉ memGenes st1 := by
      intro gr2 hgr2 g hg hc
      rw [hmg] at hc
      rcases List.mem_append.mp hc with h | h
      · exact hfresh gr2 (List.mem_cons_of_mem gr hgr2) g hg h
      · exact hhead gr2 hgr2 g h hg
    have hnext1 : st1.homNext = st.homNext + 1 := rfl
    have hhlt1 : ∀ h ∈ st1.homology, h.1 < st1.homNext := by
      intro h hh
      show h.1 < st.homNext + 1
      rcases List.mem_append.mp hh with h2 | h2
      · exact Nat.lt_trans (hhlt h h2) (Nat.lt_succ_self _)
      · have he : h = (st.homNext, relId) := by simpa using h2
        rw [he]
        exact Nat.lt_succ_self _
    have hmlt1 : ∀ p ∈ st1.member, p.2 < st1.homNext := by
      intro p hp
      show p.2 < st.homNext + 1
      rcases List.mem_append.mp hp with h2 | h2
      · exact Nat.lt_trans (hmlt p h2) (Nat.lt_succ_self _)
      · have h3 := hmemnew p.1 p.2 h2
        omega
    obtain ⟨st2, ih1, ih2, ih3, ih4, ih5, ih6, ih7, ih8, ih9⟩ :=
      ih st1 (fun x hx => hrel x (List.mem_cons_of_mem gr hx))
        (fun x hx => hne x (List.mem_cons_of_mem gr hx)) htail hfresh1 hhlt1 hmlt1
    refine ⟨st2, ?_, ?_, ?_, ?_, ?_, ?_, ?_, ?_, ?_⟩
    · rw [addLoop, if_pos (hrel gr hgrmem), hstep]
      exact ih1
    · rw [ih2]
    · rw [ih3]
    · omega
    · intro h hh
      exact ih5 h (List.mem_append.mpr (.inl hh))
    · intro h hh
      rcases ih6 h hh with h2 | h2
      · rcases List.mem_append.mp h2 with h3 | h3
        · exact .inl h3
        · have he : h = (st.homNext, relId) := by simpa using h3
          right
          rw [he]
      · right
        omega
    · intro p hp
      exact ih7 p (List.mem_append.mpr (.inl hp))
    · intro p hp
      rcases ih8 p hp with h2 | h2
      · rcases List.mem_append.mp h2 with h3 | h3
        · exact .inl h3
        · have h4 := hmemnew p.1 p.2 h3
          exact .inr ⟨⟨gr, hgrmem, h4.1⟩, by omega⟩
      · obtain ⟨⟨gr2, hgr2, hpg⟩, hge⟩ := h2
        exact .inr ⟨⟨gr2, List.mem_cons_of_mem gr hgr2, hpg⟩, by omega⟩
    · intro gr2 hgr2
      rcases List.mem_cons.mp hgr2 with h2 | h2
      · rw [h2]
        refine ⟨(st.homNext, relId), ?_, rfl, ?_, ?_⟩
        · exact ih5 (st.homNext, relId) (List.mem_append.mpr (.inr (by simp)))
        · intro g hg
          exact ih7 (g, st.homNext)
            (List.mem_append.mpr (.inr (List.mem_map.mpr ⟨g, hg, rfl⟩)))
        · rintro h2x hh2 hrel2 ⟨g, hg, hgm⟩
          have hid : h2x.1 = st.homNext := by
            rcases ih8 (g, h2x.1) hgm with hin1 | hin2
            · rcases List.mem_append.mp hin1 with h3 | h3
              · exact absurd (mem_memGenes h3) (hfr g hg)
              · exact (hmemnew g h2x.1 h3).2
            · obtain ⟨⟨gr3, hgr3, hpg⟩, _⟩ := hin2
              exact absurd hpg (hhead gr3 hgr3 g hg)
          rcases ih6 h2x hh2 with h3 | h3
          · rcases List.mem_append.mp h3 with h4 | h4
            · have := hhlt h2x h4
              exfalso
              omega
            · simpa using h4
          · exfalso
            omega
      · exact ih9 gr2 h2

/-- C7 counterexample: inserting the overlapping group sequence
{a,b},{c,d},{b,c} twice changes the query-visible contents — after the
second call, `get_related_to a` additionally reports `d`. -/
theorem c7_counterexample :
    ((add_records emptyHom overlapGroups "o").bind
        (fun st => add_records st overlapGroups "o")).toOption.map
        (fun st => (get_related_to st "a" "o").toFinset) ≠
      (add_records emptyHom overlapGroups "o").toOption.map
        (fun st => (get_related_to st "a" "o").toFinset) := by
  decide

/-- C7 (amended): for a sequence of nonempty, pairwise disjoint groups of
one relationship type, `add_records` on a fresh store is idempotent — the
second identical call returns the store unchanged, so all query results
coincide with those after a single call.  With overlapping groups (which the
Clusterer's bridging behaviour can produce) idempotence fails, as the
counterexample shows. -/
theorem c7_idempotent_disjoint (R : List HGroup) (t : String)
    (hrel : ∀ gr ∈ R, gr.relationship = t)
    (hne : ∀ gr ∈ R, gr.gene_ids ≠ [])
    (hdisj : R.Pairwise (fun a b => ∀ x ∈ a.gene_ids, x ∉ b.gene_ids)) :
    ∃ st, add_records emptyHom R t = .ok st ∧ add_records st R t = .ok st := by
  have hmk : makeRelTypeId emptyHom t =
      ({ relationship := [(t, 1)], relNext := 2, homology := [], homNext := 1,
         member := [] }, 1) := by
    simp [makeRelTypeId, emptyHom, alook]
  set st0 : HomState :=
    { relationship := [(t, 1)], relNext := 2, homology := [], homNext := 1,
      member := [] } with hst0
  obtain ⟨st2, ih1, ih2, _, _, _, _, _, _, ih9⟩ :=
    addLoop_fresh t 1 R st0 hrel hne hdisj
      (by intro gr hgr g hg hc; simp [memGenes, hst0] at hc)
      (by intro h hh; simp [hst0] at hh)
      (by intro p hp; simp [hst0] at hp)
  have hrel2 : st2.relationship = [(t, 1)] := by rw [ih2]
  have hmk2 : makeRelTypeId st2 t = (st2, 1) := by
    simp [makeRelTypeId, hrel2, alook]
  refine ⟨st2, ?_, ?_⟩
  · rw [add_records_eq, hmk]
    exact ih1
  · rw [add_records_eq, hmk2]
    exact addLoop_noop R hrel (fun gr hgr => ⟨ih9 gr hgr, hne gr hgr⟩)

/-- Witness for C7: the disjoint group sequence {a,b},{c,d}. -/
theorem c7_witness :
    ∃ st, add_records emptyHom disjGroups "o" = .ok st ∧
      add_records st disjGroups "o" = .ok st :=
  c7_idempotent_disjoint disjGroups "o" (by decide) (by decide) (by decide)

/-- C4 counterexample: after inserting the group {g1,g2,g3} of type
`ortho`, `get_related_to g1` does not return {g2,g3}: the queried gene id
itself is included. -/
theorem c4_counterexample :
    (add_records emptyHom [gr123] "ortho").toOption.map
        (fun st => (get_related_to st "g1" "ortho").toFinset) ≠
      some ({"g2", "g3"} : Finset String) := by
  decide

/-- C4 (amended): after inserting group {g1,g2,g3} of type `ortho`,
`get_related_to g1` returns all gene ids of the group including `g1` itself,
namely {g1,g2,g3}; and for a gene id absent from the member table the result
is empty rather than an error. -/
theorem c4_related_to_amended :
    (add_records emptyHom [gr123] "ortho").toOption.map
        (fun st => (get_related_to st "g1" "ortho").toFinset) =
      some ({"g1", "g2", "g3"} : Finset String) ∧
    (∀ (st : HomState) (gene t : String), gene ∉ memGenes st →
      get_related_to st gene t = []) := by
  constructor
  · decide
  · intro st gene t hg
    have hfind : st.homology.find?
        (fun h => decide (alook t st.relationship = some h.2) && memHas st gene h.1) =
        none := by
      apply List.find?_eq_none.mpr
      intro h _
      have hmh : memHas st gene h.1 = false := by
        rw [memHas]
        simp
        intro hc
        exact absurd (mem_memGenes hc) hg
      simp [hmh]
    rw [get_related_to, hfind]
    rfl

/-- Witness for C4: querying a fresh store for an unknown gene id. -/
theorem c4_witness : get_related_to emptyHom "gX" "ortho" = [] :=
  c4_related_to_amended.2 emptyHom "gX" "ortho" (by decide)

/-! ## The Merge Engine: order lemmas, loop simulation, and claim C2 -/

theorem charEq_of_toNat {a b : Char} (h : a.toNat = b.toNat) : a = b :=
  Char.ext (UInt32.ext h)

theorem lexLe_total : ∀ x y : List Char, lexLe x y = true ∨ lexLe y x = true := by
  intro x
  induction x with
  | nil => intro y; exact .inl rfl
  | cons a as ih =>
    intro y
    cases y with
    | nil => exact .inr rfl
    | cons b bs =>
      by_cases hab : a = b
      · subst hab
        rcases ih bs with h | h
        · exact .inl (by simp [lexLe, h])
        · exact .inr (by simp [lexLe, h])
      · have hne : a.toNat ≠ b.toNat := fun he => hab (charEq_of_toNat he)
        rcases Nat.lt_or_ge a.toNat b.toNat with h | h
        · exact .inl (by simp [lexLe, hab, h])
        · have hlt : b.toNat < a.toNat := Nat.lt_of_le_of_ne h (fun he => hne he.symm)
          exact .inr (by simp [lexLe, Ne.symm hab, hlt])

theorem lexLe_antisymm : ∀ x y : List Char,
    lexLe x y = true → lexLe y x = true → x = y := by
  intro x
  induction x with
  | nil =>
    intro y _ h2
    cases y with
    | nil => rfl
    | cons b bs => simp [lexLe] at h2
  | cons a as ih =>
    intro y h1 h2
    cases y with
    | nil => simp [lexLe] at h1
    | cons b bs =>
      by_cases hab : a = b
      · subst hab
        simp [lexLe] at h1 h2
        rw [ih bs h1 h2]
      · simp [lexLe, hab, Ne.symm hab] at h1 h2
        omega

theorem lexLe_trans : ∀ x y z : List Char,
    lexLe x y = true → lexLe y z = true → lexLe x z = true := by
  intro x
  induction x with
  | nil => intro y z _ _; rfl
  | cons a as ih =>
    intro y z h1 h2
    cases y with
    | nil => simp [lexLe] at h1
    | cons b bs =>
      cases z with
      | nil => simp [lexLe] at h2
      | cons c cs =>
        by_cases hab : a = b
        · subst hab
          by_cases hac : a = c
          · subst hac
            simp [lexLe] at h1 h2 ⊢
            exact ih bs cs h1 h2
          · simp [lexLe, hac] at h2 ⊢
            exact h2
        · by_cases hbc : b = c
          · subst hbc
            simp [lexLe, hab] at h1 ⊢
            exact h1
          · simp [lexLe, hab, hbc] at h1 h2
            have hac : a ≠ c := by
              intro he
              subst he
              omega
            simp [lexLe, hac]
            omega

theorem sortS_eq_of_toFinset {l l2 : List String} (h1 : l.Nodup) (h2 : l2.Nodup)
    (he : l.toFinset = l2.toFinset) : sortS l = sortS l2 := by
  haveI htot : IsTotal String (fun a b => strLe a b = true) :=
    ⟨fun a b => lexLe_total a.data b.data⟩
  haveI htr : IsTrans String (fun a b => strLe a b = true) :=
    ⟨fun a b c => lexLe_trans a.data b.data c.data⟩
  haveI hant : IsAntisymm String (fun a b => strLe a b = true) :=
    ⟨fun a b hab hba => by
      have h := lexLe_antisymm a.data b.data hab hba
      cases a
      cases b
      exact congrArg String.mk h⟩
  have hp : l.Perm l2 := List.perm_of_nodup_nodup_toFinset_eq h1 h2 he
  have hperm : (sortS l).Perm (sortS l2) :=
    ((List.perm_insertionSort _ l).trans hp).trans (List.perm_insertionSort _ l2).symm
  exact List.eq_of_perm_of_sorted hperm
    (List.sorted_insertionSort _ l) (List.sorted_insertionSort _ l2)

theorem alook_updAllV (v : List String) :
    ∀ (tgt : List String) (m : AMap) (g : String),
    alook g (updAllV v tgt m) = if g ∈ tgt then some v else alook g m := by
  intro tgt
  induction tgt with
  | nil => intro m g; simp [updAllV]
  | cons x rest ih =>
    intro m g
    rw [show updAllV v (x :: rest) m = updAllV v rest (aset x v m) from rfl, ih]
    by_cases hg : g ∈ rest
    · simp [hg, List.mem_cons]
    · by_cases hgx : g = x
      · subst hgx
        simp [hg, alook_aset_self]
      · rw [if_neg hg, alook_aset_ne _ _ (fun he => hgx he.symm)]
        simp [List.mem_cons, hg, hgx]

theorem nodup_updAllV (v : List String) :
    ∀ (tgt : List String) (m : AMap), (akeys m).Nodup →
    (akeys (updAllV v tgt m)).Nodup := by
  intro tgt
  induction tgt with
  | nil => intro m h; exact h
  | cons x rest ih =>
    intro m h
    exact ih (aset x v m) (nodup_akeys_aset x v h)

theorem mloop_cons_mem {l1 l2 : List (List String)} {x : String}
    {rest skip : List String} {m : AMap} (hx : x ∈ skip) :
    mloop l1 l2 (x :: rest) skip m = mloop l1 l2 rest skip m := by
  rw [mloop, if_pos hx]

theorem mloop_cons_not_mem {l1 l2 : List (List String)} {x : String}
    {rest skip : List String} {m : AMap} (hx : x ∉ skip) :
    mloop l1 l2 (x :: rest) skip m =
      mloop l1 l2 rest (skip ++ uniteL (glookup l1 x) (glookup l2 x))
        (updAllV (uniteL (glookup l1 x) (glookup l2 x))
          (uniteL (glookup l1 x) (glookup l2 x)) m) := by
  rw [mloop, if_neg hx]

theorem mloop_nodup (l1 l2 : List (List String)) :
    ∀ (sh skip : List String) (m : AMap), (akeys m).Nodup →
    (akeys (mloop l1 l2 sh skip m)).Nodup := by
  intro sh
  induction sh with
  | nil => intro skip m h; exact h
  | cons x rest ih =>
    intro skip m h
    by_cases hx : x ∈ skip
    · rw [mloop_cons_mem hx]
      exact ih skip m h
    · rw [mloop_cons_not_mem hx]
      exact ih _ _ (nodup_updAllV _ _ m h)

theorem mloop_equiv (l1 l2 : List (List String)) :
    ∀ (sh skip skip2 : List String) (m m2 : AMap),
    (∀ x, x ∈ skip ↔ x ∈ skip2) →
    (∀ g, (alook g m).map List.toFinset = (alook g m2).map List.toFinset) →
    ∀ g, (alook g (mloop l1 l2 sh skip m)).map List.toFinset =
      (alook g (mloop l2 l1 sh skip2 m2)).map List.toFinset := by
  intro sh
  induction sh with
  | nil =>
    intro skip skip2 m m2 _ hm g
    exact hm g
  | cons x rest ih =>
    intro skip skip2 m m2 hskip hm g
    by_cases hx : x ∈ skip
    · rw [mloop_cons_mem hx, mloop_cons_mem ((hskip x).mp hx)]
      exact ih skip skip2 m m2 hskip hm g
    · have hx2 : x ∉ skip2 := fun hc => hx ((hskip x).mpr hc)
      rw [mloop_cons_not_mem hx, mloop_cons_not_mem hx2]
      have hmem : ∀ y, y ∈ uniteL (glookup l1 x) (glookup l2 x) ↔
          y ∈ uniteL (glookup l2 x) (glookup l1 x) := by
        intro y
        rw [mem_uniteL, mem_uniteL]
        tauto
      apply ih
      · intro y
        rw [List.mem_append, List.mem_append, hskip y, hmem y]
      · intro y
        rw [alook_updAllV, alook_updAllV]
        by_cases hy : y ∈ uniteL (glookup l1 x) (glookup l2 x)
        · rw [if_pos hy, if_pos ((hmem y).mp hy)]
          simp [toFinset_uniteL, Finset.union_comm]
        · rw [if_neg hy, if_neg (fun hc => hy ((hmem y).mpr hc))]
          exact hm y

theorem akeys_map_self2 {κ β : Type} (f : κ → β) (lst : List κ) :
    akeys (lst.map (fun x => (x, f x))) = lst := by
  induction lst with
  | nil => rfl
  | cons a rest ih =>
    show (a, f a).1 :: akeys (rest.map (fun x => (x, f x))) = a :: rest
    rw [ih]

theorem gset_fdedup (l : List (List String)) : gset (fdedup l) = gset l := by
  ext s
  simp [gset, List.mem_map, mem_fdedup]

theorem gset_eq_image : ∀ m : AMap, (akeys m).Nodup →
    gset (m.map (fun p => p.2)) =
      (akeys m).toFinset.image (fun g => ((alook g m).getD []).toFinset) := by
  intro m
  induction m with
  | nil => intro _; simp [gset, akeys]
  | cons p rest ih =>
    intro hn
    rw [akeys_cons] at hn
    obtain ⟨hp, hrest⟩ := List.nodup_cons.mp hn
    have lhs : gset ((p :: rest).map (fun q => q.2)) =
        insert p.2.toFinset (gset (rest.map (fun q => q.2))) := by
      simp [gset]
    rw [lhs, ih hrest, akeys_cons, List.toFinset_cons, Finset.image_insert]
    have hf1 : ((alook p.1 (p :: rest)).getD []).toFinset = p.2.toFinset := by
      simp [alook]
    rw [hf1]
    congr 1
    apply Finset.image_congr
    intro g hg
    dsimp only
    have hgr : g ∈ akeys rest := by simpa using hg
    have hne : p.1 ≠ g := fun he => hp (he ▸ hgr)
    rw [show alook g (p :: rest) = alook g rest from by simp [alook, hne]]

theorem akeys_toFinset_eq_of_valEquiv {m m2 : AMap}
    (h : ∀ g, (alook g m).map List.toFinset = (alook g m2).map List.toFinset) :
    (akeys m).toFinset = (akeys m2).toFinset := by
  ext g
  have hs : (alook g m).isSome = (alook g m2).isSome := by
    have h3 := congrArg Option.isSome (h g)
    simpa using h3
  rw [List.mem_toFinset, List.mem_toFinset, ← alook_isSome_iff, ← alook_isSome_iff, hs]

theorem mergeType_eq (l1 l2 : List (List String)) :
    mergeType l1 l2 =
      fdedup ((mloop l1 l2
        (sortS ((gkeys l1).filter (fun g => decide (g ∈ gkeys l2)))) []
        (((gkeys l1).filter (fun g => decide (g ∉ gkeys l2))).map
            (fun g => (g, glookup l1 g)) ++
         ((gkeys l2).filter (fun g => decide (g ∉ gkeys l1))).map
            (fun g => (g, glookup l2 g)))).map (fun p => p.2)) := rfl

theorem alook_merge_m0 (la lb : List (List String)) (g : String) :
    alook g (((gkeys la).filter (fun g => decide (g ∉ gkeys lb))).map
        (fun g => (g, glookup la g)) ++
      ((gkeys lb).filter (fun g => decide (g ∉ gkeys la))).map
        (fun g => (g, glookup lb g))) =
    if g ∈ gkeys la ∧ g ∉ gkeys lb then some (glookup la g)
    else if g ∈ gkeys lb ∧ g ∉ gkeys la then some (glookup lb g)
    else none := by
  rw [alook_append, alook_map_self, alook_map_self]
  by_cases h1 : g ∈ (gkeys la).filter (fun g => decide (g ∉ gkeys lb))
  · have h1m := List.mem_filter.mp h1
    simp at h1m
    simp [h1, h1m]
  · rw [if_neg h1]
    have h1m : ¬ (g ∈ gkeys la ∧ g ∉ gkeys lb) := by
      intro hc
      exact h1 (List.mem_filter.mpr ⟨hc.1, by simpa using hc.2⟩)
    by_cases h2 : g ∈ (gkeys lb).filter (fun g => decide (g ∉ gkeys la))
    · have h2m := List.mem_filter.mp h2
      simp at h2m
      simp [h2, h1m, h2m]
    · have h2m : ¬ (g ∈ gkeys lb ∧ g ∉ gkeys la) := by
        intro hc
        exact h2 (List.mem_filter.mpr ⟨hc.1, by simpa using hc.2⟩)
      simp [h2, h1m, h2m]

theorem nodup_merge_m0 (la lb : List (List String)) :
    (akeys (((gkeys la).filter (fun g => decide (g ∉ gkeys lb))).map
        (fun g => (g, glookup la g)) ++
      ((gkeys lb).filter (fun g => decide (g ∉ gkeys la))).map
        (fun g => (g, glookup lb g)))).Nodup := by
  rw [akeys_append, akeys_map_self2, akeys_map_self2]
  refine List.Nodup.append (List.Nodup.filter _ (nodup_fdedup _))
    (List.Nodup.filter _ (nodup_fdedup _)) ?_
  intro x hx hx2
  have hm1 := List.mem_filter.mp hx
  have hm2 := List.mem_filter.mp hx2
  simp at hm1 hm2
  exact hm2.2 hm1.1

theorem gset_mergeType_comm (l1 l2 : List (List String)) :
    gset (mergeType l1 l2) = gset (mergeType l2 l1) := by
  have hsh : sortS ((gkeys l1).filter (fun g => decide (g ∈ gkeys l2))) =
      sortS ((gkeys l2).filter (fun g => decide (g ∈ gkeys l1))) := by
    apply sortS_eq_of_toFinset
    · exact List.Nodup.filter _ (nodup_fdedup _)
    · exact List.Nodup.filter _ (nodup_fdedup _)
    · ext g
      simp [List.mem_filter]
      tauto
  have hm0 : ∀ g,
      (alook g (((gkeys l1).filter (fun g => decide (g ∉ gkeys l2))).map
          (fun g => (g, glookup l1 g)) ++
        ((gkeys l2).filter (fun g => decide (g ∉ gkeys l1))).map
          (fun g => (g, glookup l2 g)))).map List.toFinset =
      (alook g (((gkeys l2).filter (fun g => decide (g ∉ gkeys l1))).map
          (fun g => (g, glookup l2 g)) ++
        ((gkeys l1).filter (fun g => decide (g ∉ gkeys l2))).map
          (fun g => (g, glookup l1 g)))).map List.toFinset := by
    intro g
    rw [alook_merge_m0, alook_merge_m0]
    by_cases h1 : g ∈ gkeys l1 ∧ g ∉ gkeys l2
    · rw [if_pos h1, if_neg (fun hc => hc.2 h1.1), if_pos h1]
    · rw [if_neg h1]
      by_cases h2 : g ∈ gkeys l2 ∧ g ∉ gkeys l1
      · rw [if_pos h2, if_pos h2]
      · rw [if_neg h2, if_neg h2, if_neg h1]
  rw [mergeType_eq l1 l2, mergeType_eq l2 l1, ← hsh]
  rw [gset_fdedup, gset_fdedup]
  have hval := mloop_equiv l1 l2
    (sortS ((gkeys l1).filter (fun g => decide (g ∈ gkeys l2)))) [] [] _ _
    (fun x => Iff.rfl) hm0
  have hndA := mloop_nodup l1 l2
    (sortS ((gkeys l1).filter (fun g => decide (g ∈ gkeys l2)))) []
    _ (nodup_merge_m0 l1 l2)
  have hndB := mloop_nodup l2 l1
    (sortS ((gkeys l1).filter (fun g => decide (g ∈ gkeys l2)))) []
    _ (nodup_merge_m0 l2 l1)
  rw [gset_eq_image _ hndA, gset_eq_image _ hndB]
  rw [akeys_toFinset_eq_of_valEquiv hval]
  apply Finset.image_congr
  intro g _
  dsimp only
  have h2 := hval g
  rcases ha : alook g (mloop l1 l2
      (sortS ((gkeys l1).filter (fun g => decide (g ∈ gkeys l2)))) []
      (((gkeys l1).filter (fun g => decide (g ∉ gkeys l2))).map
          (fun g => (g, glookup l1 g)) ++
        ((gkeys l2).filter (fun g => decide (g ∉ gkeys l1))).map
          (fun g => (g, glookup l2 g)))) with _ | va
  · rcases hb : alook g (mloop l2 l1
        (sortS ((gkeys l1).filter (fun g => decide (g ∈ gkeys l2)))) []
        (((gkeys l2).filter (fun g => decide (g ∉ gkeys l1))).map
            (fun g => (g, glookup l2 g)) ++
          ((gkeys l1).filter (fun g => decide (g ∉ gkeys l2))).map
            (fun g => (g, glookup l1 g)))) with _ | vb
    · rfl
    · rw [ha, hb] at h2
      simp at h2
  · rcases hb : alook g (mloop l2 l1
        (sortS ((gkeys l1).filter (fun g => decide (g ∈ gkeys l2)))) []
        (((gkeys l2).filter (fun g => decide (g ∉ gkeys l1))).map
            (fun g => (g, glookup l2 g)) ++
          ((gkeys l1).filter (fun g => decide (g ∉ gkeys l2))).map
            (fun g => (g, glookup l1 g)))) with _ | vb
    · rw [ha, hb] at h2
      simp at h2
    · rw [ha, hb] at h2
      simp at h2
      simpa using h2

theorem merge_grouped_eq (X Y : TMap) :
    merge_grouped X Y =
      (fdedup (X.map (fun p => p.1) ++ Y.map (fun p => p.1))).map
        (fun t => (t, match alook t X, alook t Y with
          | some la, some lb => mergeType la lb
          | some la, none => la
          | none, some lb => lb
          | none, none => ([] : List (List String)))) := by
  rw [merge_grouped]
  congr 1
  funext t
  rcases alook t X <;> rcases alook t Y <;> rfl

theorem alook_merge_grouped (X Y : TMap) (t : String) :
    alook t (merge_grouped X Y) =
      if t ∈ fdedup (X.map (fun p => p.1) ++ Y.map (fun p => p.1)) then
        some (match alook t X, alook t Y with
          | some la, some lb => mergeType la lb
          | some la, none => la
          | none, some lb => lb
          | none, none => ([] : List (List String)))
      else none := by
  rw [merge_grouped_eq, alook_map_self]

theorem keysTF_merge (X Y : TMap) :
    keysTF (merge_grouped X Y) = keysTF X ∪ keysTF Y := by
  have h1 : (merge_grouped X Y).map (fun p => p.1) =
      fdedup (X.map (fun p => p.1) ++ Y.map (fun p => p.1)) := by
    rw [merge_grouped_eq]
    exact akeys_map_self2 _ _
  show ((merge_grouped X Y).map (fun p => p.1)).toFinset = _
  rw [h1]
  ext t
  simp [keysTF, List.mem_toFinset, mem_fdedup, List.mem_append, Finset.mem_union]

instance (x y : TMap) : Decidable (sameT x y) := by
  unfold sameT
  infer_instance

/-- C2 counterexample: with the partial clusterings A of the edges
(o,a,x),(o,b,y), B of (o,a,b) and C of (o,b,y), merging (A then B) then C
yields the groups {a,b,x},{b,y}, while merging A with (B then C) yields the
single group {a,b,x,y} — associativity fails on bridging merges, so the
claimed conjunction of commutativity and associativity is false. -/
theorem c2_counterexample :
    ¬ sameT (merge_grouped (merge_grouped mergeA mergeB) mergeC)
        (merge_grouped mergeA (merge_grouped mergeB mergeC)) := by
  decide

/-- C2 (amended): `merge_grouped` is commutative — for all type-keyed group
mappings A and B, merging A with B and merging B with A agree on the set of
relationship types and, per type, on the set of member sets; associativity
fails in general, as the counterexample records. -/
theorem c2_merge_grouped_comm (A B : TMap) :
    sameT (merge_grouped A B) (merge_grouped B A) := by
  constructor
  · rw [keysTF_merge, keysTF_merge, Finset.union_comm]
  · intro t _
    rw [alook_merge_grouped, alook_merge_grouped]
    have hmem : t ∈ fdedup (A.map (fun p => p.1) ++ B.map (fun p => p.1)) ↔
        t ∈ fdedup (B.map (fun p => p.1) ++ A.map (fun p => p.1)) := by
      simp [mem_fdedup]
      tauto
    by_cases hin : t ∈ fdedup (A.map (fun p => p.1) ++ B.map (fun p => p.1))
    · rw [if_pos hin, if_pos (hmem.mp hin)]
      rcases ha : alook t A with _ | la <;> rcases hb : alook t B with _ | lb
      · rfl
      · rfl
      · rfl
      · simpa using gset_mergeType_comm la lb
    · rw [if_neg hin, if_neg (fun hc => hin (hmem.mpr hc))]
